import Mathlib

/-!
Verification of the searchfn search-and-index kernel.

This file is a shallow embedding, in Lean 4, of the parts of the searchfn
repository that the verified properties talk about: the posting-list codec
(delta plus varint with a JSON fallback), the ingestion pipeline stages
(tokenize, normalize, stop words, stemming, edge n-grams), Levenshtein
based fuzzy expansion, the LRU cache, the document statistics manager, and
the query engines (the persistent SearchFn and the InMemorySearchFn).

Modelling conventions:
- JS numbers are modelled exactly: integer-valued quantities as Nat or Int,
  score arithmetic as rationals.  Where the source applies 32-bit
  coercions (the unsigned shift in the varint codec, the 32-bit OR in the
  varint decoder, the 5-bit masking of shift counts) the embedding applies
  the corresponding explicit modular arithmetic.
- The host JSON.stringify and JSON.parse builtins are modelled by a
  concrete serializer and recursive-descent reader over the JSON value
  shapes this repository produces (numbers, strings, booleans, arrays,
  objects, with string escapes).  Byte buffers are modelled at codepoint
  granularity: TextEncoder and TextDecoder are inverse on the strings
  involved, so a string is represented in a buffer by its codepoint list.
- JS Map and Set are modelled as insertion-ordered association lists,
  matching their iteration order semantics.
-/

/-! ## JS digit and string helpers -/

/-- Lowercase hexadecimal digit characters, as emitted by the host JSON
string escaping of control characters (and reused for decimal digits). -/
def hexDigitChar (n : Nat) : Char :=
  match n with
  | 0 => '0' | 1 => '1' | 2 => '2' | 3 => '3' | 4 => '4'
  | 5 => '5' | 6 => '6' | 7 => '7' | 8 => '8' | 9 => '9'
  | 10 => 'a' | 11 => 'b' | 12 => 'c' | 13 => 'd' | 14 => 'e'
  | _ => 'f'

/-- Numeric value of a hexadecimal digit character, if it is one. -/
def hexVal (c : Char) : Option Nat :=
  if 48 ≤ c.toNat ∧ c.toNat ≤ 57 then some (c.toNat - 48)
  else if 97 ≤ c.toNat ∧ c.toNat ≤ 102 then some (c.toNat - 87)
  else if 65 ≤ c.toNat ∧ c.toNat ≤ 70 then some (c.toNat - 55)
  else none

set_option linter.unusedVariables false in
/-- Decimal digit expansion of a natural number, most significant first,
as produced by the host number-to-string conversion for integers. -/
def natDigits (n : Nat) : List Char :=
  if h : n < 10 then [hexDigitChar n]
  else natDigits (n / 10) ++ [hexDigitChar (n % 10)]
  decreasing_by exact Nat.div_lt_self (by omega) (by omega)

/-- Decimal character expansion of an integer (minus sign for negatives). -/
def intChars (n : Int) : List Char :=
  if n < 0 then '-' :: natDigits n.natAbs else natDigits n.toNat

/-! ## JSON values

The JSON value shapes produced by this repository: integer numbers,
strings, booleans, arrays and objects (fields in insertion order, matching
the host property order for the object literals the code builds). -/

inductive Json where
  | num (n : Int)
  | str (s : String)
  | bool (b : Bool)
  | arr (elems : List Json)
  | obj (fields : List (String × Json))
deriving Repr, BEq

/-- Escape of a single character inside a JSON string literal: quote and
backslash get a backslash prefix, control characters become a four-digit
unicode escape, everything else passes through. -/
def escapeChar (c : Char) : List Char :=
  if c = '"' then ['\\', '"']
  else if c = '\\' then ['\\', '\\']
  else if c.toNat < 32 then
    ['\\', 'u', '0', '0', hexDigitChar (c.toNat / 16), hexDigitChar (c.toNat % 16)]
  else [c]

/-- Body of a JSON string literal: concatenated character escapes. -/
def escapeString (s : List Char) : List Char :=
  match s with
  | [] => []
  | c :: rest => escapeChar c ++ escapeString rest

/-- Full JSON string literal for a string value. -/
def strLit (s : String) : List Char :=
  '"' :: escapeString s.data ++ ['"']

mutual

/-- Serialization of a JSON value, modelling JSON.stringify on the shapes
this repository produces (no whitespace, fields in insertion order). -/
def stringifyV : Json → List Char
  | .num n => intChars n
  | .str s => strLit s
  | .bool b => if b then ['t', 'r', 'u', 'e'] else ['f', 'a', 'l', 's', 'e']
  | .arr es => '[' :: stringifyElems es ++ [']']
  | .obj fs => '{' :: stringifyFields fs ++ ['}']

/-- Comma-separated serialization of array elements. -/
def stringifyElems : List Json → List Char
  | [] => []
  | [v] => stringifyV v
  | v :: rest => stringifyV v ++ ',' :: stringifyElems rest

/-- Comma-separated serialization of object fields. -/
def stringifyFields : List (String × Json) → List Char
  | [] => []
  | [(k, v)] => strLit k ++ ':' :: stringifyV v
  | (k, v) :: rest => strLit k ++ ':' :: stringifyV v ++ ',' :: stringifyFields rest

end

/-- JSON text of a value, as a string. -/
def jsStringify (v : Json) : String :=
  String.mk (stringifyV v)

/-! ## JSON reading (model of JSON.parse)

A fuelled recursive-descent reader.  It accepts exactly the texts the
serializer above produces (the only JSON texts the verified code paths
feed to JSON.parse), and returns none on everything else, modelling a
JSON.parse exception. -/

/-- Leading run of decimal digits, accumulated into a value. -/
def parseNatAux (acc : Nat) : List Char → Nat × List Char
  | [] => (acc, [])
  | c :: rest =>
    if c.isDigit then parseNatAux (acc * 10 + (c.toNat - 48)) rest
    else (acc, c :: rest)

/-- Reads an integer JSON number (optional minus sign, digit run). -/
def parseNum : List Char → Option (Int × List Char)
  | [] => none
  | c :: rest =>
    if c = '-' then
      match rest with
      | [] => none
      | d :: _ =>
        if d.isDigit then
          let (n, r) := parseNatAux 0 rest
          some (-(n : Int), r)
        else none
    else if c.isDigit then
      let (n, r) := parseNatAux 0 (c :: rest)
      some ((n : Int), r)
    else none

/-- Reads a JSON string body after the opening quote, undoing the escapes
the serializer emits, up to and including the closing quote. -/
def parseStringBody : List Char → Option (List Char × List Char)
  | [] => none
  | c :: rest =>
    if c = '"' then some ([], rest)
    else if c = '\\' then
      match rest with
      | [] => none
      | e :: rest2 =>
        if e = '"' then
          (parseStringBody rest2).map (fun p => ('"' :: p.1, p.2))
        else if e = '\\' then
          (parseStringBody rest2).map (fun p => ('\\' :: p.1, p.2))
        else if e = 'u' then
          match rest2 with
          | h1 :: h2 :: h3 :: h4 :: rest3 =>
            match hexVal h1, hexVal h2, hexVal h3, hexVal h4 with
            | some a, some b, some c3, some d =>
              (parseStringBody rest3).map
                (fun p => (Char.ofNat (((a * 16 + b) * 16 + c3) * 16 + d) :: p.1, p.2))
            | _, _, _, _ => none
          | _ => none
        else none
    else (parseStringBody rest).map (fun p => (c :: p.1, p.2))

mutual

/-- Fuelled JSON value reader.  The fuel only bounds bracket-nesting plus
element-count recursion; one unit per value or separator step, so an
input of length n is fully handled by fuel n + 1. -/
def parseVal : Nat → List Char → Option (Json × List Char)
  | 0, _ => none
  | _ + 1, [] => none
  | fuel + 1, c :: rest =>
    if c = '"' then
      (parseStringBody rest).map (fun p => (.str (String.mk p.1), p.2))
    else if c = '[' then
      match rest with
      | [] => none
      | c2 :: r =>
        if c2 = ']' then some (.arr [], r)
        else (parseArrTail fuel (c2 :: r)).map (fun p => (.arr p.1, p.2))
    else if c = '{' then
      match rest with
      | [] => none
      | c2 :: r =>
        if c2 = '}' then some (.obj [], r)
        else (parseObjTail fuel (c2 :: r)).map (fun p => (.obj p.1, p.2))
    else if c = 't' then
      match rest with
      | 'r' :: 'u' :: 'e' :: r => some (.bool true, r)
      | _ => none
    else if c = 'f' then
      match rest with
      | 'a' :: 'l' :: 's' :: 'e' :: r => some (.bool false, r)
      | _ => none
    else (parseNum (c :: rest)).map (fun p => (.num p.1, p.2))

/-- Reads the elements of a non-empty array body, consuming the closing
bracket. -/
def parseArrTail : Nat → List Char → Option (List Json × List Char)
  | 0, _ => none
  | fuel + 1, input =>
    match parseVal fuel input with
    | none => none
    | some (v, r) =>
      match r with
      | ',' :: r2 => (parseArrTail fuel r2).map (fun p => (v :: p.1, p.2))
      | ']' :: r2 => some ([v], r2)
      | _ => none

/-- Reads the fields of a non-empty object body, consuming the closing
brace. -/
def parseObjTail : Nat → List Char → Option (List (String × Json) × List Char)
  | 0, _ => none
  | fuel + 1, input =>
    match input with
    | '"' :: rest =>
      match parseStringBody rest with
      | none => none
      | some (k, r) =>
        match r with
        | ':' :: r2 =>
          match parseVal fuel r2 with
          | none => none
          | some (v, r3) =>
            match r3 with
            | ',' :: r4 => (parseObjTail fuel r4).map (fun p => ((String.mk k, v) :: p.1, p.2))
            | '}' :: r4 => some ([(String.mk k, v)], r4)
            | _ => none
        | _ => none
    | _ => none

end

/-- Model of JSON.parse: reads one value spanning the whole input. -/
def jsParse (s : String) : Option Json :=
  match parseVal (s.data.length + 1) s.data with
  | some (v, []) => some v
  | _ => none

/-! ## Posting-list codec (src/storage/chunk-serializer.ts)

Buffers are byte lists.  The JS unsigned shift, bitwise AND with 0x7f,
OR with 0x80 and 32-bit accumulation are rendered as explicit modular
arithmetic and Nat bitwise operations. -/

/-- JS coercion value >>> 0: an integer number reduced to unsigned 32-bit. -/
def jsToUint32 (n : Int) : Nat :=
  (n % (2 ^ 32 : Int)).toNat

/-- Loop of encodeVarint: emits low seven-bit groups with the continuation
bit, little-endian, terminated by a byte below 0x80. -/
def encodeVarintGo (v : Nat) : List Nat :=
  if v < 128 then [v]
  else (v % 128 + 128) :: encodeVarintGo (v / 128)
  decreasing_by exact Nat.div_lt_self (by omega) (by omega)

/-- encodeVarint: the input is first coerced by the unsigned shift
value >>> 0, then emitted in base-128 groups. -/
def encodeVarint (value : Int) : List Nat :=
  encodeVarintGo (jsToUint32 value)

/-- Errors signalled by the codec. -/
inductive CodecErr where
  | varintOverflow
  | truncatedVarint
  | unsortedDelta
  | jsonNotArray
  | jsonParseFailed
deriving Repr, DecidableEq

/-- Loop of decodeVarint.  result is accumulated with a 32-bit OR whose
addend shift count is masked to five bits (JS << semantics); a byte with
the continuation bit clear terminates; after a continuation byte the
shift grows by 7 and values of shift beyond 35 signal overflow. -/
def decodeVarintGo (result shift : Nat) : List Nat → Except CodecErr (Nat × List Nat)
  | [] => .error .truncatedVarint
  | byte :: rest =>
    if byte / 128 % 2 = 0 then
      .ok ((result ||| (byte % 128) <<< (shift % 32)) % 2 ^ 32, rest)
    else if shift + 7 > 35 then .error .varintOverflow
    else decodeVarintGo ((result ||| (byte % 128) <<< (shift % 32)) % 2 ^ 32) (shift + 7) rest

/-- decodeVarint on the suffix of the buffer starting at the read
position, returning the decoded value and the remaining suffix. -/
def decodeVarint (buffer : List Nat) : Except CodecErr (Nat × List Nat) :=
  decodeVarintGo 0 0 buffer

/-- Posting values handed to the codec: numbers or strings. -/
inductive PV where
  | num (n : Int)
  | str (s : String)
deriving Repr, BEq

/-- The identity canDeltaEncode tests: every value a non-negative integer
(integers are exactly the values the num constructor can hold). -/
def canDeltaEncode (values : List PV) : Bool :=
  values.all fun v => match v with
    | .num n => 0 ≤ n
    | .str _ => false

/-- Injection of codec input values into JSON values. -/
def pvToJson : PV → Json
  | .num n => .num n
  | .str s => .str s

/-- Codepoint-granularity model of TextEncoder.encode. -/
def strToBytes (s : String) : List Nat :=
  s.data.map Char.toNat

/-- Codepoint-granularity model of TextDecoder.decode. -/
def bytesToStr (bytes : List Nat) : String :=
  String.mk (bytes.map Char.ofNat)

/-- Chunk payload encodings. -/
inductive Encoding where
  | deltaVarint
  | json
deriving Repr, DecidableEq

/-- Stable ascending sort, the observable behaviour of the host
Array.prototype.sort with comparator a - b on a number array. -/
def sortAsc (values : List Int) : List Int :=
  values.insertionSort (· ≤ ·)

/-- Delta loop of encodePostings: each value emits the varint of its
difference from the previous one (previous starts at 0); a negative
difference raises. -/
def deltaEncodeGo (previous : Int) : List Int → Except CodecErr (List Nat)
  | [] => .ok []
  | current :: rest =>
    let delta := current - previous
    if delta < 0 then .error .unsortedDelta
    else
      match deltaEncodeGo current rest with
      | .error e => .error e
      | .ok bytes => .ok (encodeVarint delta ++ bytes)

/-- encodePostings: empty input encodes to an empty delta-varint buffer;
all non-negative integers sort ascending and delta-varint encode;
anything else is serialized as the JSON text of the value array. -/
def encodePostings (values : List PV) : Except CodecErr (List Nat × Encoding) :=
  if values.length = 0 then .ok ([], .deltaVarint)
  else if !canDeltaEncode values then
    .ok (strToBytes (jsStringify (.arr (values.map pvToJson))), .json)
  else
    let ints := values.map fun v => match v with | .num n => n | .str _ => 0
    match deltaEncodeGo 0 (sortAsc ints) with
    | .error e => .error e
    | .ok bytes => .ok (bytes, .deltaVarint)

/-- When decodeVarintGo succeeds it has consumed at least one byte. -/
theorem decodeVarintGo_rest_length {r s : Nat} {buf rest : List Nat} {v : Nat}
    (h : decodeVarintGo r s buf = .ok (v, rest)) : rest.length < buf.length := by
  induction buf generalizing r s with
  | nil => simp [decodeVarintGo] at h
  | cons byte tail ih =>
    simp only [decodeVarintGo] at h
    split at h
    · simp only [Except.ok.injEq, Prod.mk.injEq] at h
      obtain ⟨-, rfl⟩ := h
      simp
    · split at h
      · simp at h
      · have := ih h
        simp only [List.length_cons]
        omega

set_option linter.unusedVariables false in
/-- Delta loop of decodePostings: repeatedly decode a varint and add it
to the running previous value (previous starts at 0). -/
def deltaDecodeGo (previous : Nat) (buffer : List Nat) : Except CodecErr (List Nat) :=
  match buffer with
  | [] => .ok []
  | b :: tail =>
    match h : decodeVarintGo 0 0 (b :: tail) with
    | .error e => .error e
    | .ok (delta, rest) =>
      let value := previous + delta
      match deltaDecodeGo value rest with
      | .error e => .error e
      | .ok values => .ok (value :: values)
  termination_by buffer.length
  decreasing_by exact decodeVarintGo_rest_length h

/-- decodePostings: the json branch decodes the bytes to text, parses it
and requires an array (an empty buffer short-circuits to the empty list);
the delta-varint branch runs the delta loop. -/
def decodePostings (buffer : List Nat) (encoding : Encoding) : Except CodecErr (List Json) :=
  match encoding with
  | .json =>
    if buffer.length = 0 then .ok []
    else
      match jsParse (bytesToStr buffer) with
      | none => .error .jsonParseFailed
      | some (.arr elems) => .ok elems
      | some _ => .error .jsonNotArray
  | .deltaVarint => (deltaDecodeGo 0 buffer).map fun values => values.map (Json.num ∘ Int.ofNat)

/-! ## Round-trip properties of the JSON model -/

theorem hexVal_hexDigitChar {n : Nat} (h : n < 16) : hexVal (hexDigitChar n) = some n := by
  interval_cases n <;> decide

theorem hexDigitChar_isDigit {n : Nat} (h : n < 10) : (hexDigitChar n).isDigit = true := by
  interval_cases n <;> decide

/-- First character of the remaining input, digit test (used to state that
a serialized number is followed by a non-digit, so the digit run stops). -/
def headDigit : List Char → Bool
  | [] => false
  | c :: _ => c.isDigit

theorem isDigit_toNat {c : Char} (h : c.isDigit = true) : 48 ≤ c.toNat ∧ c.toNat ≤ 57 := by
  simpa [Char.isDigit] using h

theorem natDigits_ne_nil (n : Nat) : natDigits n ≠ [] := by
  rw [natDigits]
  split <;> simp

theorem natDigits_all_isDigit (n : Nat) : ∀ c ∈ natDigits n, c.isDigit = true := by
  induction n using Nat.strong_induction_on with
  | _ n ih =>
    rw [natDigits]
    split
    · next h => intro c hc; simp at hc; subst hc; exact hexDigitChar_isDigit h
    · next h =>
      intro c hc
      simp only [List.mem_append, List.mem_singleton] at hc
      rcases hc with hc | hc
      · exact ih (n / 10) (Nat.div_lt_self (by omega) (by omega)) c hc
      · subst hc; exact hexDigitChar_isDigit (Nat.mod_lt _ (by omega))

theorem foldl_natDigits (n : Nat) :
    ∀ acc, (natDigits n).foldl (fun a c => a * 10 + (c.toNat - 48)) acc
      = acc * 10 ^ (natDigits n).length + n := by
  induction n using Nat.strong_induction_on with
  | _ n ih =>
    intro acc
    rw [natDigits]
    split
    · next h =>
      have : (hexDigitChar n).toNat = 48 + n := by interval_cases n <;> decide
      simp [this]
    · next h =>
      rw [List.foldl_append]
      have hlt : n / 10 < n := Nat.div_lt_self (by omega) (by omega)
      have hmod : (hexDigitChar (n % 10)).toNat = 48 + n % 10 := by
        have : n % 10 < 10 := Nat.mod_lt _ (by omega)
        interval_cases hx : n % 10 <;> simp [hx] <;> decide
      simp only [ih (n / 10) hlt acc, List.foldl_cons, List.foldl_nil, hmod,
        List.length_append, List.length_singleton]
      rw [pow_succ]
      have := Nat.div_add_mod n 10
      ring_nf
      omega

theorem parseNatAux_digits (ds : List Char) (hds : ∀ c ∈ ds, c.isDigit = true)
    (rest : List Char) (hrest : headDigit rest = false) :
    ∀ acc, parseNatAux acc (ds ++ rest)
      = (ds.foldl (fun a c => a * 10 + (c.toNat - 48)) acc, rest) := by
  induction ds with
  | nil =>
    intro acc
    cases rest with
    | nil => rfl
    | cons c tail =>
      simp only [headDigit] at hrest
      simp [parseNatAux, hrest]
  | cons c tail ih =>
    intro acc
    have hc : c.isDigit = true := hds c (by simp)
    simp only [List.cons_append, parseNatAux, hc, if_pos]
    have hcast : tail.append rest = tail ++ rest := rfl
    rw [hcast, ih (fun d hd => hds d (by simp [hd]))]
    simp

theorem parseNum_intChars (n : Int) (rest : List Char) (hrest : headDigit rest = false) :
    parseNum (intChars n ++ rest) = some (n, rest) := by
  unfold intChars
  split
  · next hn =>
    obtain ⟨d, ds, hds⟩ : ∃ d ds, natDigits n.natAbs = d :: ds := by
      cases h : natDigits n.natAbs with
      | nil => exact absurd h (natDigits_ne_nil _)
      | cons d ds => exact ⟨d, ds, rfl⟩
    have hdig : d.isDigit = true := natDigits_all_isDigit _ d (by rw [hds]; simp)
    have hpn := parseNatAux_digits (natDigits n.natAbs) (natDigits_all_isDigit _) rest hrest 0
    rw [foldl_natDigits] at hpn
    rw [hds] at hpn
    simp only [List.cons_append] at hpn
    simp only [List.cons_append, parseNum, if_pos rfl]
    rw [hds]
    simp only [List.cons_append, hdig, if_pos, hpn]
    simp only [Option.some.injEq, Prod.mk.injEq, and_true]
    omega
  · next hn =>
    obtain ⟨d, ds, hds⟩ : ∃ d ds, natDigits n.toNat = d :: ds := by
      cases h : natDigits n.toNat with
      | nil => exact absurd h (natDigits_ne_nil _)
      | cons d ds => exact ⟨d, ds, rfl⟩
    have hdig : d.isDigit = true := natDigits_all_isDigit _ d (by rw [hds]; simp)
    have hne : ¬ d = '-' := by
      intro h
      have := isDigit_toNat hdig
      rw [h] at this
      simp at this
    have hpn := parseNatAux_digits (natDigits n.toNat) (natDigits_all_isDigit _) rest hrest 0
    rw [foldl_natDigits] at hpn
    rw [hds] at hpn
    simp only [List.cons_append] at hpn
    rw [hds]
    simp only [List.cons_append, parseNum, if_neg hne, hdig, if_pos, hpn]
    simp only [Option.some.injEq, Prod.mk.injEq, and_true]
    omega

theorem parseStringBody_escape (s : List Char) (rest : List Char) :
    parseStringBody (escapeString s ++ '"' :: rest) = some (s, rest) := by
  induction s with
  | nil =>
    rw [escapeString, List.nil_append, parseStringBody.eq_def]
    simp
  | cons c cs ih =>
    rw [escapeString, List.append_assoc]
    by_cases hq : c = '"'
    · subst hq
      rw [show escapeChar '"' = ['\\', '"'] from rfl, List.cons_append, List.cons_append,
        List.nil_append, parseStringBody.eq_def]
      simp [ih]
    · by_cases hb : c = '\\'
      · subst hb
        rw [show escapeChar '\\' = ['\\', '\\'] from rfl, List.cons_append, List.cons_append,
          List.nil_append, parseStringBody.eq_def]
        simp [ih]
      · by_cases hc : c.toNat < 32
        · rw [show escapeChar c = ['\\', 'u', '0', '0', hexDigitChar (c.toNat / 16),
              hexDigitChar (c.toNat % 16)] from by
            rw [escapeChar, if_neg hq, if_neg hb, if_pos hc]]
          simp only [List.cons_append, List.nil_append]
          rw [parseStringBody.eq_def]
          have h16a : hexVal '0' = some 0 := by decide
          have h16b : hexVal (hexDigitChar (c.toNat / 16)) = some (c.toNat / 16) :=
            hexVal_hexDigitChar (by omega)
          have h16c : hexVal (hexDigitChar (c.toNat % 16)) = some (c.toNat % 16) :=
            hexVal_hexDigitChar (Nat.mod_lt _ (by omega))
          simp only [h16a, h16b, h16c, ih]
          have harith : c.toNat / 16 * 16 + c.toNat % 16 = c.toNat := by omega
          simp [harith, Char.ofNat_toNat]
        · rw [show escapeChar c = [c] from by
            rw [escapeChar, if_neg hq, if_neg hb, if_neg hc]]
          rw [List.cons_append, List.nil_append, parseStringBody.eq_def]
          simp [hq, hb, ih]

theorem intChars_head (n : Int) :
    ∃ c cs, intChars n = c :: cs ∧ (c = '-' ∨ c.isDigit = true) := by
  unfold intChars
  split
  · exact ⟨'-', _, rfl, Or.inl rfl⟩
  · cases h : natDigits n.toNat with
    | nil => exact absurd h (natDigits_ne_nil _)
    | cons d ds =>
      exact ⟨d, ds, rfl, Or.inr (natDigits_all_isDigit _ d (by rw [h]; simp))⟩

/-- Characters that can start a serialized JSON value. -/
theorem stringifyV_head (v : Json) :
    ∃ c cs, stringifyV v = c :: cs ∧
      ((c = '-' ∨ c.isDigit = true) ∨ c = '"' ∨ c = '[' ∨ c = '{' ∨ c = 't' ∨ c = 'f') := by
  cases v with
  | num n =>
    obtain ⟨c, cs, h, hc⟩ := intChars_head n
    exact ⟨c, cs, by simpa [stringifyV] using h, Or.inl hc⟩
  | str s => exact ⟨'"', _, rfl, by simp⟩
  | bool b => cases b with
    | true => exact ⟨'t', _, rfl, by simp⟩
    | false => exact ⟨'f', _, rfl, by simp⟩
  | arr es => exact ⟨'[', _, rfl, by simp⟩
  | obj fs => exact ⟨'{', _, rfl, by simp⟩

theorem head_value_ne_close {c : Char}
    (hc : (c = '-' ∨ c.isDigit = true) ∨ c = '"' ∨ c = '[' ∨ c = '{' ∨ c = 't' ∨ c = 'f') :
    ¬ c = ']' ∧ ¬ c = '}' := by
  rcases hc with (rfl | hd) | rfl | rfl | rfl | rfl | rfl
  · exact ⟨by decide, by decide⟩
  · have := isDigit_toNat hd
    constructor <;> rintro rfl <;> simp_all
  all_goals exact ⟨by decide, by decide⟩

theorem head_num_dispatch {c : Char} (hc : c = '-' ∨ c.isDigit = true) :
    ¬ c = '"' ∧ ¬ c = '[' ∧ ¬ c = '{' ∧ ¬ c = 't' ∧ ¬ c = 'f' := by
  rcases hc with rfl | hd
  · exact ⟨by decide, by decide, by decide, by decide, by decide⟩
  · have := isDigit_toNat hd
    refine ⟨?_, ?_, ?_, ?_, ?_⟩ <;> rintro rfl <;> simp_all

theorem stringifyV_length_pos (v : Json) : 1 ≤ (stringifyV v).length := by
  obtain ⟨c, cs, h, -⟩ := stringifyV_head v
  rw [h]
  simp

theorem mk_data_eq (s : String) : String.mk s.data = s := rfl

/-- Side condition for reading a serialized number: the following input
must not begin with a digit (inside arrays and objects the next character
is a separator, so this holds automatically). -/
def numOk : Json → List Char → Prop
  | .num _, rest => headDigit rest = false
  | _, _ => True

theorem numOk_sep (v : Json) (c : Char) (r : List Char) (hc : c.isDigit = false) :
    numOk v (c :: r) := by
  cases v <;> simp [numOk, headDigit, hc]

/-- Round trip of the JSON model: with enough fuel (the input length
suffices), reading a serialized value returns the value and the unread
remainder.  Stated mutually for values, array bodies and object bodies
and proved by induction on the fuel. -/
theorem parse_stringify (f : Nat) :
    (∀ v rest, (stringifyV v).length ≤ f → numOk v rest →
      parseVal f (stringifyV v ++ rest) = some (v, rest)) ∧
    (∀ es rest, es ≠ [] → (stringifyElems es).length + 1 ≤ f →
      parseArrTail f (stringifyElems es ++ ']' :: rest) = some (es, rest)) ∧
    (∀ fs rest, fs ≠ [] → (stringifyFields fs).length + 1 ≤ f →
      parseObjTail f (stringifyFields fs ++ '}' :: rest) = some (fs, rest)) := by
  induction f with
  | zero =>
    refine ⟨?_, ?_, ?_⟩
    · intro v rest hlen _
      have := stringifyV_length_pos v
      omega
    · intro es rest hne hlen
      omega
    · intro fs rest hne hlen
      omega
  | succ fuel ih =>
    obtain ⟨ihA, ihB, ihC⟩ := ih
    refine ⟨?_, ?_, ?_⟩
    · intro v rest hlen hnum
      cases v with
      | num n =>
        have hnum' : headDigit rest = false := hnum
        obtain ⟨c, cs, hic, hcd⟩ := intChars_head n
        obtain ⟨h1, h2, h3, h4, h5⟩ := head_num_dispatch hcd
        have hshape : stringifyV (Json.num n) ++ rest = c :: (cs ++ rest) := by
          simp [stringifyV, hic]
        rw [hshape, parseVal.eq_def]
        simp only [if_neg h1, if_neg h2, if_neg h3, if_neg h4, if_neg h5]
        have hre : c :: (cs ++ rest) = intChars n ++ rest := by simp [hic]
        rw [hre, parseNum_intChars n rest hnum']
        rfl
      | str s =>
        have hshape : stringifyV (Json.str s) ++ rest
            = '"' :: (escapeString s.data ++ '"' :: rest) := by
          simp [stringifyV, strLit]
        rw [hshape, parseVal.eq_def]
        simp [parseStringBody_escape, mk_data_eq]
      | bool b =>
        cases b with
        | false =>
          have hshape : stringifyV (Json.bool false) ++ rest
              = 'f' :: 'a' :: 'l' :: 's' :: 'e' :: rest := by
            simp [stringifyV]
          rw [hshape, parseVal.eq_def]
          simp
        | true =>
          have hshape : stringifyV (Json.bool true) ++ rest
              = 't' :: 'r' :: 'u' :: 'e' :: rest := by
            simp [stringifyV]
          rw [hshape, parseVal.eq_def]
          simp
      | arr es =>
        cases es with
        | nil =>
          have hshape : stringifyV (Json.arr []) ++ rest = '[' :: ']' :: rest := by
            simp [stringifyV, stringifyElems]
          rw [hshape, parseVal.eq_def]
          simp
        | cons v vs =>
          obtain ⟨c, cs, hvc, hcd⟩ := stringifyV_head v
          have hcne := (head_value_ne_close hcd).1
          obtain ⟨tail, htail⟩ : ∃ tail, stringifyElems (v :: vs) = c :: tail := by
            cases vs with
            | nil => exact ⟨cs, by simp [stringifyElems, hvc]⟩
            | cons w ws =>
              exact ⟨cs ++ ',' :: stringifyElems (w :: ws), by simp [stringifyElems, hvc]⟩
          have hshape : stringifyV (Json.arr (v :: vs)) ++ rest
              = '[' :: (c :: (tail ++ ']' :: rest)) := by
            simp [stringifyV, htail]
          rw [hshape, parseVal.eq_def]
          have hlen' : (stringifyElems (v :: vs)).length + 1 ≤ fuel := by
            have : (stringifyV (Json.arr (v :: vs))).length
                = (stringifyElems (v :: vs)).length + 2 := by
              simp [stringifyV]
            omega
          have hrecombine : c :: (tail ++ ']' :: rest)
              = stringifyElems (v :: vs) ++ ']' :: rest := by
            simp [htail]
          simp only [if_neg (by decide : ¬('[' : Char) = '"'), if_pos rfl, if_neg hcne]
          rw [hrecombine, ihB (v :: vs) rest (by simp) hlen']
          rfl
      | obj fs =>
        cases fs with
        | nil =>
          have hshape : stringifyV (Json.obj []) ++ rest = '{' :: '}' :: rest := by
            simp [stringifyV, stringifyFields]
          rw [hshape, parseVal.eq_def]
          simp
        | cons kv fs' =>
          obtain ⟨k, v⟩ := kv
          obtain ⟨tail, htail⟩ : ∃ tail, stringifyFields ((k, v) :: fs') = '"' :: tail := by
            cases fs' with
            | nil => exact ⟨escapeString k.data ++ '"' :: ':' :: stringifyV v, by
                simp [stringifyFields, strLit]⟩
            | cons kv2 fs'' =>
              exact ⟨escapeString k.data ++ '"' :: ':' :: stringifyV v
                  ++ ',' :: stringifyFields (kv2 :: fs''), by
                simp [stringifyFields, strLit]⟩
          have hshape : stringifyV (Json.obj ((k, v) :: fs')) ++ rest
              = '{' :: ('"' :: (tail ++ '}' :: rest)) := by
            simp [stringifyV, htail]
          rw [hshape, parseVal.eq_def]
          have hlen' : (stringifyFields ((k, v) :: fs')).length + 1 ≤ fuel := by
            have : (stringifyV (Json.obj ((k, v) :: fs'))).length
                = (stringifyFields ((k, v) :: fs')).length + 2 := by
              simp [stringifyV]
            omega
          have hrecombine : ('"' : Char) :: (tail ++ '}' :: rest)
              = stringifyFields ((k, v) :: fs') ++ '}' :: rest := by
            simp [htail]
          simp only [if_neg (by decide : ¬('{' : Char) = '"'),
            if_neg (by decide : ¬('{' : Char) = '['), if_pos rfl,
            if_neg (by decide : ¬('"' : Char) = '}')]
          rw [hrecombine, ihC ((k, v) :: fs') rest (by simp) hlen']
          rfl
    · intro es rest hne hlen
      obtain ⟨v, vs, rfl⟩ : ∃ v vs, es = v :: vs := by
        cases es with
        | nil => exact absurd rfl hne
        | cons v vs => exact ⟨v, vs, rfl⟩
      cases vs with
      | nil =>
        have hshape : stringifyElems [v] ++ ']' :: rest = stringifyV v ++ ']' :: rest := by
          simp [stringifyElems]
        have hbound : (stringifyV v).length ≤ fuel := by
          have : (stringifyElems [v]).length = (stringifyV v).length := by
            simp [stringifyElems]
          omega
        rw [hshape, parseArrTail.eq_def]
        simp only [ihA v (']' :: rest) hbound (numOk_sep v ']' rest (by decide))]
      | cons w ws =>
        have hshape : stringifyElems (v :: w :: ws) ++ ']' :: rest
            = stringifyV v ++ ',' :: (stringifyElems (w :: ws) ++ ']' :: rest) := by
          simp [stringifyElems]
        have hlen2 : (stringifyV v).length + 1 + (stringifyElems (w :: ws)).length + 1
            ≤ fuel + 1 := by
          have : (stringifyElems (v :: w :: ws)).length
              = (stringifyV v).length + 1 + (stringifyElems (w :: ws)).length := by
            simp [stringifyElems]
            omega
          omega
        have hvpos := stringifyV_length_pos v
        have hbound : (stringifyV v).length ≤ fuel := by omega
        have hbound2 : (stringifyElems (w :: ws)).length + 1 ≤ fuel := by omega
        rw [hshape, parseArrTail.eq_def]
        simp only [ihA v (',' :: (stringifyElems (w :: ws) ++ ']' :: rest)) hbound
          (numOk_sep v ',' _ (by decide))]
        simp only [ihB (w :: ws) rest (by simp) hbound2]
        rfl
    · intro fs rest hne hlen
      obtain ⟨k, v, fs', rfl⟩ : ∃ k v fs', fs = (k, v) :: fs' := by
        cases fs with
        | nil => exact absurd rfl hne
        | cons kv fs' =>
          obtain ⟨k, v⟩ := kv
          exact ⟨k, v, fs', rfl⟩
      have hklen : (strLit k).length = (escapeString k.data).length + 2 := by
        simp [strLit]
      cases fs' with
      | nil =>
        have hshape : stringifyFields [(k, v)] ++ '}' :: rest
            = '"' :: (escapeString k.data ++ '"'
                :: (':' :: (stringifyV v ++ '}' :: rest))) := by
          simp [stringifyFields, strLit]
        have hbound : (stringifyV v).length ≤ fuel := by
          have : (stringifyFields [(k, v)]).length
              = (strLit k).length + 1 + (stringifyV v).length := by
            simp [stringifyFields]
            omega
          omega
        rw [hshape, parseObjTail.eq_def]
        simp only [parseStringBody_escape]
        simp only [ihA v ('}' :: rest) hbound (numOk_sep v '}' rest (by decide))]
      | cons kv2 fs'' =>
        have hshape : stringifyFields ((k, v) :: kv2 :: fs'') ++ '}' :: rest
            = '"' :: (escapeString k.data ++ '"'
                :: (':' :: (stringifyV v
                  ++ ',' :: (stringifyFields (kv2 :: fs'') ++ '}' :: rest)))) := by
          simp [stringifyFields, strLit]
        have hlen2 : (strLit k).length + 1 + (stringifyV v).length + 1
            + (stringifyFields (kv2 :: fs'')).length + 1 ≤ fuel + 1 := by
          have : (stringifyFields ((k, v) :: kv2 :: fs'')).length
              = (strLit k).length + 1 + (stringifyV v).length + 1
                + (stringifyFields (kv2 :: fs'')).length := by
            simp [stringifyFields]
            omega
          omega
        have hvpos := stringifyV_length_pos v
        have hbound : (stringifyV v).length ≤ fuel := by omega
        have hbound2 : (stringifyFields (kv2 :: fs'')).length + 1 ≤ fuel := by omega
        rw [hshape, parseObjTail.eq_def]
        simp only [parseStringBody_escape]
        simp only [ihA v (',' :: (stringifyFields (kv2 :: fs'') ++ '}' :: rest)) hbound
          (numOk_sep v ',' _ (by decide))]
        simp only [ihC (kv2 :: fs'') rest (by simp) hbound2]
        simp [mk_data_eq]

/-! ## Varint round trip -/

theorem lor_eq_add_of_lt {a : Nat} (b : Nat) {s : Nat} (ha : a < 2 ^ s) :
    a ||| b <<< s = a + b <<< s := by
  induction s generalizing a b with
  | zero =>
    interval_cases a
    simp
  | succ s ih =>
    have hbit : 2 * a.div2 + a.bodd.toNat = a := by
      rw [← Nat.bit_val, Nat.bit_decomp]
    have hdecompb : b <<< (s + 1) = Nat.bit false (b <<< s) := by
      rw [Nat.bit_val]
      simp only [Nat.shiftLeft_eq, Nat.pow_succ, Bool.toNat_false, Nat.add_zero]
      ring
    have ha2 : a.div2 < 2 ^ s := by
      have hp : (2 : Nat) ^ (s + 1) = 2 ^ s * 2 := Nat.pow_succ 2 s
      cases h : a.bodd <;> rw [h] at hbit <;> simp at hbit <;> omega
    conv_lhs => rw [← Nat.bit_decomp a, hdecompb, Nat.lor_bit]
    rw [ih b ha2]
    rw [Nat.bit_val]
    simp only [Nat.shiftLeft_eq, Nat.pow_succ, Bool.or_false, ← Nat.mul_assoc]
    cases h : a.bodd <;> rw [h] at hbit <;> simp at hbit <;> simp [h] <;> omega

theorem encodeVarintGo_ne_nil (v : Nat) : encodeVarintGo v ≠ [] := by
  rw [encodeVarintGo]
  split <;> simp

/-- Decoding after encoding, with the shift and accumulator invariants the
loop maintains: the shift is a multiple of 7 at most 28, the pending value
fits the remaining bits, and the accumulator occupies only the low bits. -/
theorem decode_encode_varint_go (v : Nat) :
    ∀ r s rest, s % 7 = 0 → s ≤ 28 → v < 2 ^ (32 - s) → r < 2 ^ s →
      decodeVarintGo r s (encodeVarintGo v ++ rest) = .ok (r + v * 2 ^ s, rest) := by
  induction v using Nat.strong_induction_on with
  | _ v ih =>
    intro r s rest hs7 hs28 hv hr
    have hsmall : s % 32 = s := Nat.mod_eq_of_lt (by omega)
    have hpow : (2 : Nat) ^ s * 2 ^ (32 - s) = 2 ^ 32 := by
      rw [← pow_add]
      congr 1
      omega
    rw [encodeVarintGo]
    split
    · next hlt =>
      have hbyte : v / 128 % 2 = 0 := by omega
      simp only [List.cons_append, List.nil_append, decodeVarintGo, hbyte, if_pos rfl]
      have hmod : v % 128 = v := Nat.mod_eq_of_lt hlt
      rw [hmod, hsmall, lor_eq_add_of_lt v hr, Nat.shiftLeft_eq]
      have hlt32 : r + v * 2 ^ s < 2 ^ 32 := by
        have h3 : (2 : Nat) ^ (32 - s) * 2 ^ s = 2 ^ 32 := by
          rw [mul_comm]
          exact hpow
        have h1 : (v + 1) * 2 ^ s ≤ 2 ^ (32 - s) * 2 ^ s :=
          Nat.mul_le_mul_right _ (by omega)
        have h2 : v * 2 ^ s + 2 ^ s = (v + 1) * 2 ^ s := by ring
        omega
      rw [Nat.mod_eq_of_lt hlt32]
      simp
    · next hge =>
      have hvge : 128 ≤ v := by omega
      have hbyte : (v % 128 + 128) / 128 % 2 = 1 := by omega
      have hs21 : s ≤ 21 := by
        by_contra hgt
        have hseq : s = 28 := by omega
        rw [hseq] at hv
        norm_num at hv
        omega
      have hb128 : (v % 128 + 128) % 128 = v % 128 := by omega
      simp only [List.cons_append, decodeVarintGo, hbyte, hb128, hsmall]
      rw [if_neg (by norm_num : ¬ (1 : Nat) = 0), if_neg (by omega : ¬ s + 7 > 35)]
      rw [lor_eq_add_of_lt (v % 128) hr, Nat.shiftLeft_eq]
      have hp7 : (2 : Nat) ^ (s + 7) = 2 ^ s * 128 := by
        rw [pow_add]
        norm_num
      have hr' : r + v % 128 * 2 ^ s < 2 ^ (s + 7) := by
        have h1 : (v % 128 + 1) * 2 ^ s ≤ 128 * 2 ^ s :=
          Nat.mul_le_mul_right _ (by omega)
        have h2 : v % 128 * 2 ^ s + 2 ^ s = (v % 128 + 1) * 2 ^ s := by ring
        have h3 : (2 : Nat) ^ (s + 7) = 128 * 2 ^ s := by rw [hp7]; ring
        omega
      have hlt32' : r + v % 128 * 2 ^ s < 2 ^ 32 := by
        have h1 : (2 : Nat) ^ (s + 7) ≤ 2 ^ 32 := Nat.pow_le_pow_right (by omega) (by omega)
        omega
      rw [Nat.mod_eq_of_lt hlt32']
      have hv' : v / 128 < 2 ^ (32 - (s + 7)) := by
        rw [Nat.div_lt_iff_lt_mul (by omega : (0:Nat) < 128)]
        have : (2 : Nat) ^ (32 - (s + 7)) * 128 = 2 ^ (32 - s) := by
          have h32 : (32 - s) = (32 - (s + 7)) + 7 := by omega
          rw [h32, pow_add]
          norm_num
        omega
      have happ : (encodeVarintGo (v / 128)).append rest = encodeVarintGo (v / 128) ++ rest :=
        rfl
      rw [happ, ih (v / 128) (Nat.div_lt_self (by omega) (by omega)) _ (s + 7) rest
        (by omega) (by omega) hv' hr']
      have hmul : v * 2 ^ s = 128 * (v / 128) * 2 ^ s + v % 128 * 2 ^ s := by
        conv_lhs => rw [← Nat.div_add_mod v 128]
        ring
      have h4 : v / 128 * 2 ^ (s + 7) = 128 * (v / 128) * 2 ^ s := by
        rw [hp7]
        ring
      congr 2
      omega

theorem decodeVarint_encodeVarint {v : Nat} (hv : v < 2 ^ 32) (rest : List Nat) :
    decodeVarint (encodeVarintGo v ++ rest) = .ok (v, rest) := by
  have := decode_encode_varint_go v 0 0 rest (by omega) (by omega) (by simpa) (by omega)
  simpa using this

theorem jsParse_jsStringify (v : Json) : jsParse (jsStringify v) = some v := by
  have hnum : numOk v [] := by cases v <;> simp [numOk, headDigit]
  have h := (parse_stringify ((stringifyV v).length + 1)).1 v [] (by omega) hnum
  rw [List.append_nil] at h
  unfold jsParse jsStringify
  rw [show (String.mk (stringifyV v)).data = stringifyV v from rfl, h]

theorem deltaDecodeGo_cons {b : Nat} {tail : List Nat} {delta : Nat} {rest : List Nat}
    (h : decodeVarintGo 0 0 (b :: tail) = .ok (delta, rest)) (prev : Nat) :
    deltaDecodeGo prev (b :: tail)
      = match deltaDecodeGo (prev + delta) rest with
        | .error e => .error e
        | .ok values => .ok ((prev + delta) :: values) := by
  rw [deltaDecodeGo]
  split
  · next e heq =>
    rw [h] at heq
    cases heq
  · next d r heq =>
    rw [h] at heq
    cases heq
    rfl

/-- Round trip of the delta loops, for a run of values that is ascending
from the running previous value and bounded by 2^32. -/
theorem delta_roundtrip (l : List Int) :
    ∀ prev : Int, 0 ≤ prev → List.Chain (· ≤ ·) prev l → (∀ x ∈ l, x < 2 ^ 32) →
    ∃ bytes, deltaEncodeGo prev l = .ok bytes ∧
      deltaDecodeGo prev.toNat bytes = .ok (l.map Int.toNat) := by
  induction l with
  | nil =>
    intro prev _ _ _
    refine ⟨[], rfl, ?_⟩
    rw [deltaDecodeGo]
    rfl
  | cons a l ih =>
    intro prev hprev hchain hlt
    rw [List.chain_cons] at hchain
    obtain ⟨hpa, hchain2⟩ := hchain
    have ha32 : a < 2 ^ 32 := hlt a (by simp)
    obtain ⟨bytes, henc, hdec⟩ := ih a (le_trans hprev hpa) hchain2
      (fun x hx => hlt x (by simp [hx]))
    refine ⟨encodeVarint (a - prev) ++ bytes, ?_, ?_⟩
    · rw [deltaEncodeGo]
      rw [if_neg (by omega : ¬ a - prev < 0), henc]
    · have hpow : ((2 : Int) ^ 32) = 4294967296 := by norm_num
      have hjs : jsToUint32 (a - prev) = (a - prev).toNat := by
        unfold jsToUint32
        rw [hpow]
        omega
      have hdelta32 : (a - prev).toNat < 2 ^ 32 := by
        have : ((2 : Nat) ^ 32) = 4294967296 := by norm_num
        omega
      rw [show encodeVarint (a - prev) = encodeVarintGo (a - prev).toNat from by
        unfold encodeVarint
        rw [hjs]]
      obtain ⟨b, tail0, hsh⟩ :
          ∃ b tail0, encodeVarintGo (a - prev).toNat ++ bytes = b :: tail0 := by
        cases hE : encodeVarintGo (a - prev).toNat with
        | nil => exact absurd hE (encodeVarintGo_ne_nil _)
        | cons x xs => exact ⟨x, xs ++ bytes, by simp [hE]⟩
      have hvdec : decodeVarintGo 0 0 (b :: tail0) = .ok ((a - prev).toNat, bytes) := by
        rw [← hsh]
        exact decodeVarint_encodeVarint hdelta32 bytes
      rw [hsh, deltaDecodeGo_cons hvdec prev.toNat]
      have hsum : prev.toNat + (a - prev).toNat = a.toNat := by omega
      rw [hsum, hdec]
      simp

theorem bytesToStr_strToBytes (s : String) : bytesToStr (strToBytes s) = s := by
  unfold bytesToStr strToBytes
  rw [List.map_map]
  have : s.data.map (Char.ofNat ∘ Char.toNat) = s.data.map id := by
    apply List.map_congr_left
    intro c _
    exact Char.ofNat_toNat c
  rw [this, List.map_id, mk_data_eq]

/-- Integer path of the codec: a list of non-negative integers below 2^32
delta-varint encodes and decodes back to its ascending sort. -/
theorem encodePostings_delta_roundtrip (L : List Int)
    (hpos : ∀ x ∈ L, 0 ≤ x) (hlt : ∀ x ∈ L, x < 2 ^ 32) :
    ∃ buffer, encodePostings (L.map PV.num) = .ok (buffer, .deltaVarint) ∧
      decodePostings buffer .deltaVarint = .ok ((sortAsc L).map Json.num) := by
  have hmem : ∀ x ∈ sortAsc L, x ∈ L := by
    intro x hx
    exact (List.perm_insertionSort (· ≤ ·) L).mem_iff.mp hx
  have hsorted : List.Sorted (· ≤ ·) (sortAsc L) := List.sorted_insertionSort (· ≤ ·) L
  have hchain : List.Chain (· ≤ ·) 0 (sortAsc L) := by
    rw [List.chain_iff_pairwise]
    rw [List.pairwise_cons]
    exact ⟨fun x hx => hpos x (hmem x hx), hsorted⟩
  obtain ⟨bytes, henc, hdec⟩ := delta_roundtrip (sortAsc L) 0 le_rfl hchain
    (fun x hx => hlt x (hmem x hx))
  cases hL : L with
  | nil =>
    refine ⟨[], by simp [encodePostings], ?_⟩
    rw [decodePostings]
    rw [show deltaDecodeGo 0 [] = .ok [] from by rw [deltaDecodeGo]]
    rfl
  | cons a l =>
    subst hL
    have hlen : ¬ (List.map PV.num (a :: l)).length = 0 := by simp
    have hcde : canDeltaEncode (List.map PV.num (a :: l)) = true := by
      simp only [canDeltaEncode, List.all_eq_true]
      intro x hx
      rw [List.mem_map] at hx
      obtain ⟨y, hy, rfl⟩ := hx
      simpa using hpos y hy
    have hints : (List.map (fun v => match v with | .num n => n | .str _ => 0)
        (List.map PV.num (a :: l))) = a :: l := by
      rw [List.map_map]
      have hfun : ((fun v => match v with | PV.num n => n | PV.str _ => 0) ∘ PV.num)
          = id := rfl
      rw [hfun, List.map_id]
    rw [encodePostings, if_neg hlen, hcde]
    simp only [Bool.not_true, if_neg (by decide : ¬ false = true)]
    rw [hints]
    have h0 : (0 : Int).toNat = 0 := rfl
    rw [henc]
    refine ⟨bytes, rfl, ?_⟩
    rw [decodePostings]
    rw [h0] at hdec
    rw [hdec]
    have hmap : ((Except.ok (List.map Int.toNat (sortAsc (a :: l)))
          : Except CodecErr (List Nat)).map
            fun values => List.map (Json.num ∘ Int.ofNat) values)
        = Except.ok (List.map (Json.num ∘ Int.ofNat)
            (List.map Int.toNat (sortAsc (a :: l)))) := rfl
    rw [hmap, List.map_map]
    congr 1
    apply List.map_congr_left
    intro x hx
    have hx0 : 0 ≤ x := hpos x (hmem x hx)
    show Json.num (Int.ofNat x.toNat) = Json.num x
    congr 1
    exact Int.toNat_of_nonneg hx0

theorem canDeltaEncode_false_of_str {L : List PV} {s : String} (hs : PV.str s ∈ L) :
    canDeltaEncode L = false := by
  simp only [canDeltaEncode]
  rw [List.all_eq_false]
  exact ⟨PV.str s, hs, by simp⟩

/-- JSON path of the codec: a list containing a string serializes as the
JSON text of the value array and decodes element-wise. -/
theorem encodePostings_json_roundtrip (L : List PV) {s : String} (hs : PV.str s ∈ L) :
    encodePostings L
      = .ok (strToBytes (jsStringify (.arr (L.map pvToJson))), .json) ∧
    decodePostings (strToBytes (jsStringify (.arr (L.map pvToJson)))) .json
      = .ok (L.map pvToJson) := by
  have hlen : ¬ L.length = 0 := by
    intro h
    rw [List.length_eq_zero] at h
    subst h
    simp at hs
  constructor
  · rw [encodePostings, if_neg hlen, canDeltaEncode_false_of_str hs]
    rfl
  · rw [decodePostings]
    have hnz : ¬ (strToBytes (jsStringify (Json.arr (L.map pvToJson)))).length = 0 := by
      unfold strToBytes jsStringify
      simp only [List.length_map]
      have := stringifyV_length_pos (Json.arr (L.map pvToJson))
      intro hzero
      omega
    rw [if_neg hnz, bytesToStr_strToBytes, jsParse_jsStringify]

/-! ## Claim C5: malformed varint detection -/

theorem varint_truncated_aux :
    ∀ (buf : List Nat) (r s : Nat), (∀ b ∈ buf, 128 ≤ b ∧ b < 256) →
      s + 7 * buf.length ≤ 35 →
      decodeVarintGo r s buf = .error .truncatedVarint := by
  intro buf
  induction buf with
  | nil => intro r s _ _; rfl
  | cons b tail ih =>
    intro r s hb hlen
    obtain ⟨hb1, hb2⟩ := hb b (by simp)
    simp only [List.length_cons] at hlen
    simp only [decodeVarintGo]
    rw [if_neg (by omega : ¬ b / 128 % 2 = 0), if_neg (by omega : ¬ s + 7 > 35)]
    exact ih _ (s + 7) (fun x hx => hb x (by simp [hx])) (by omega)

theorem decodeVarintGo_cont {b : Nat} (hb1 : 128 ≤ b) (hb2 : b < 256) {r s : Nat}
    (hs : ¬ s + 7 > 35) (rest : List Nat) :
    decodeVarintGo r s (b :: rest)
      = decodeVarintGo ((r ||| (b % 128) <<< (s % 32)) % 2 ^ 32) (s + 7) rest := by
  simp only [decodeVarintGo]
  rw [if_neg (by omega : ¬ b / 128 % 2 = 0), if_neg hs]

theorem decodeVarintGo_cont_overflow {b : Nat} (hb1 : 128 ≤ b) (hb2 : b < 256) {r s : Nat}
    (hs : s + 7 > 35) (rest : List Nat) :
    decodeVarintGo r s (b :: rest) = .error .varintOverflow := by
  simp only [decodeVarintGo]
  rw [if_neg (by omega : ¬ b / 128 % 2 = 0), if_pos hs]

theorem decodeVarintGo_term {b : Nat} (hb : b < 128) (r s : Nat) (rest : List Nat) :
    decodeVarintGo r s (b :: rest)
      = .ok ((r ||| (b % 128) <<< (s % 32)) % 2 ^ 32, rest) := by
  simp only [decodeVarintGo]
  rw [if_pos (by omega : b / 128 % 2 = 0)]

/-- Claim C5 (amended).  Varint decoding detects malformed input as
follows: a buffer of at most five bytes all carrying the continuation bit
ends in a truncated-input error; six leading continuation bytes raise the
overflow error (the guard shift > 35 fires on the sixth continuation
byte); but a six-byte varint whose sixth byte clears the continuation bit
decodes to a value (its sixth payload group is ORed in at shift 35,
masked to 3 by the 32-bit shift semantics) instead of failing. -/
theorem C5_varint_malformed_detection :
    (∀ buf : List Nat, (∀ b ∈ buf, 128 ≤ b ∧ b < 256) → buf.length ≤ 5 →
      decodeVarint buf = .error .truncatedVarint) ∧
    (∀ b0 b1 b2 b3 b4 b5 rest,
      (∀ b ∈ [b0, b1, b2, b3, b4, b5], 128 ≤ b ∧ b < 256) →
      decodeVarint (b0 :: b1 :: b2 :: b3 :: b4 :: b5 :: rest)
        = .error .varintOverflow) ∧
    (∀ b0 b1 b2 b3 b4 b5 rest,
      (∀ b ∈ [b0, b1, b2, b3, b4], 128 ≤ b ∧ b < 256) → b5 < 128 →
      ∃ v, decodeVarint (b0 :: b1 :: b2 :: b3 :: b4 :: b5 :: rest) = .ok (v, rest)) := by
  refine ⟨?_, ?_, ?_⟩
  · intro buf hb hlen
    exact varint_truncated_aux buf 0 0 hb (by omega)
  · intro b0 b1 b2 b3 b4 b5 rest hb
    have h0 := hb b0 (by simp)
    have h1 := hb b1 (by simp)
    have h2 := hb b2 (by simp)
    have h3 := hb b3 (by simp)
    have h4 := hb b4 (by simp)
    have h5 := hb b5 (by simp)
    unfold decodeVarint
    rw [decodeVarintGo_cont h0.1 h0.2 (by omega) _,
      decodeVarintGo_cont h1.1 h1.2 (by omega) _,
      decodeVarintGo_cont h2.1 h2.2 (by omega) _,
      decodeVarintGo_cont h3.1 h3.2 (by omega) _,
      decodeVarintGo_cont h4.1 h4.2 (by omega) _]
    exact decodeVarintGo_cont_overflow h5.1 h5.2 (by omega) rest
  · intro b0 b1 b2 b3 b4 b5 rest hb hb5
    have h0 := hb b0 (by simp)
    have h1 := hb b1 (by simp)
    have h2 := hb b2 (by simp)
    have h3 := hb b3 (by simp)
    have h4 := hb b4 (by simp)
    unfold decodeVarint
    rw [decodeVarintGo_cont h0.1 h0.2 (by omega) _,
      decodeVarintGo_cont h1.1 h1.2 (by omega) _,
      decodeVarintGo_cont h2.1 h2.2 (by omega) _,
      decodeVarintGo_cont h3.1 h3.2 (by omega) _,
      decodeVarintGo_cont h4.1 h4.2 (by omega) _,
      decodeVarintGo_term hb5 _ _ _]
    exact ⟨_, rfl⟩

/-- Claim C5 counterexample: a buffer holding a six-byte varint (five
continuation bytes, then a terminating byte) decodes to a value instead
of failing, so the claim that a 6-byte varint is rejected is false. -/
theorem C5_counterexample :
    decodePostings [128, 128, 128, 128, 128, 1] .deltaVarint = .ok [Json.num 8] := by
  have h : decodeVarintGo 0 0 [128, 128, 128, 128, 128, 1] = .ok (8, []) := by rfl
  rw [decodePostings]
  rw [deltaDecodeGo_cons h 0]
  rw [show deltaDecodeGo (0 + 8) [] = .ok [] from by rw [deltaDecodeGo]]
  rfl

/-- Claim C5 witness: the amended theorem applied at concrete buffers. -/
theorem C5_witness :
    decodeVarint [200, 200] = .error .truncatedVarint ∧
    decodeVarint [128, 128, 128, 128, 128, 128, 7] = .error .varintOverflow ∧
    ∃ v, decodeVarint [128, 128, 128, 128, 128, 1] = .ok (v, []) := by
  refine ⟨?_, ?_, ?_⟩
  · exact C5_varint_malformed_detection.1 [200, 200] (by decide) (by decide)
  · exact C5_varint_malformed_detection.2.1 128 128 128 128 128 128 [7] (by decide)
  · exact C5_varint_malformed_detection.2.2 128 128 128 128 128 1 [] (by decide) (by decide)

/-! ## Claim C6: codec round trip -/

/-- Claim C6 (amended).  Codec round trip: a list of non-negative
integers below 2^32 delta-varint encodes and decodes back to its
ascending sort (the bound is forced by the unsigned-shift coercion
value >>> 0 inside encodeVarint, which truncates any larger integer);
the empty list encodes to an empty delta-varint buffer that decodes to
the empty list; and a list containing a string takes the json encoding
and decodes element-wise. -/
theorem C6_codec_roundtrip :
    (∀ L : List Int, (∀ x ∈ L, 0 ≤ x) → (∀ x ∈ L, x < 2 ^ 32) →
      ∃ buffer, encodePostings (L.map PV.num) = .ok (buffer, .deltaVarint) ∧
        decodePostings buffer .deltaVarint = .ok ((sortAsc L).map Json.num)) ∧
    (encodePostings [] = .ok ([], .deltaVarint) ∧
      decodePostings [] .deltaVarint = .ok []) ∧
    (∀ (L : List PV) (s : String), PV.str s ∈ L →
      encodePostings L = .ok (strToBytes (jsStringify (.arr (L.map pvToJson))), .json) ∧
      decodePostings (strToBytes (jsStringify (.arr (L.map pvToJson)))) .json
        = .ok (L.map pvToJson)) := by
  refine ⟨encodePostings_delta_roundtrip, ⟨by simp [encodePostings], ?_⟩, ?_⟩
  · rw [decodePostings, show deltaDecodeGo 0 [] = .ok [] from by rw [deltaDecodeGo]]
    rfl
  · intro L s hs
    exact encodePostings_json_roundtrip L hs

/-- Claim C6 counterexample: the integer 2^32 = 4294967296 is a
non-negative finite integer, but the unsigned-shift coercion in
encodeVarint truncates it to 0, so the encoded list decodes to the list
holding 0 instead of the original value: the unrestricted round-trip
claim is false. -/
theorem C6_counterexample :
    encodePostings [PV.num 4294967296] = .ok ([0], .deltaVarint) ∧
    decodePostings [0] .deltaVarint = .ok [Json.num 0] ∧
    Json.num 0 ≠ Json.num 4294967296 := by
  refine ⟨?_, ?_, by simp⟩
  · have h1 : ¬ ([PV.num 4294967296] : List PV).length = 0 := by simp
    have h2 : canDeltaEncode [PV.num 4294967296] = true := by decide
    rw [encodePostings, if_neg h1, h2]
    simp only [Bool.not_true, if_neg (by decide : ¬ false = true)]
    have h3 : deltaEncodeGo 0 (sortAsc [(4294967296 : Int)]) = .ok [0] := by
      rw [show sortAsc [(4294967296 : Int)] = [4294967296] from rfl]
      rw [deltaEncodeGo]
      rw [if_neg (by norm_num : ¬ (4294967296 : Int) - 0 < 0)]
      rw [show deltaEncodeGo (4294967296 : Int) [] = .ok [] from rfl]
      rw [show encodeVarint ((4294967296 : Int) - 0) = encodeVarintGo 0 from by
        unfold encodeVarint jsToUint32
        norm_num]
      rw [encodeVarintGo]
      norm_num
    rw [show (List.map (fun v => match v with | PV.num n => n | PV.str _ => 0)
        [PV.num 4294967296]) = [(4294967296 : Int)] from rfl]
    rw [h3]
  · have h : decodeVarintGo 0 0 [0] = .ok (0, []) := rfl
    rw [decodePostings, deltaDecodeGo_cons h 0]
    rw [show deltaDecodeGo (0 + 0) [] = .ok [] from by rw [deltaDecodeGo]]
    rfl

/-- Claim C6 witness: the amended round trip applied to the concrete
lists of the specification scenario (integers 3,10,11,25,26 and strings
doc-1, doc-2). -/
theorem C6_witness :
    (∃ buffer, encodePostings ([3, 10, 11, 25, 26].map PV.num)
        = .ok (buffer, .deltaVarint) ∧
      decodePostings buffer .deltaVarint
        = .ok ((sortAsc [3, 10, 11, 25, 26]).map Json.num)) ∧
    (encodePostings [PV.str "doc-1", PV.str "doc-2"]
        = .ok (strToBytes (jsStringify
            (.arr ([PV.str "doc-1", PV.str "doc-2"].map pvToJson))), .json) ∧
      decodePostings (strToBytes (jsStringify
          (.arr ([PV.str "doc-1", PV.str "doc-2"].map pvToJson)))) .json
        = .ok ([PV.str "doc-1", PV.str "doc-2"].map pvToJson)) := by
  constructor
  · exact C6_codec_roundtrip.1 [3, 10, 11, 25, 26] (by decide) (by decide)
  · exact C6_codec_roundtrip.2.2 [PV.str "doc-1", PV.str "doc-2"] "doc-1"
      (List.mem_cons_self _ _)

/-! ## Pipeline (src/pipeline): tokens, stages, default stage list -/

/-- Token metadata record: the keys this repository ever writes
(isPrefix and originalTerm, from the edge n-gram stage) together with
isNGram, which the in-memory query filter reads although no stage ever
sets it. -/
structure TokenMeta where
  isPrefix : Option Bool := none
  originalTerm : Option String := none
  isNGram : Option Bool := none
deriving Repr, BEq, DecidableEq

/-- Pipeline token. -/
structure Token where
  value : String
  position : Nat
  field : String
  documentId : Option String := none
  metadata : Option TokenMeta := none
deriving Repr, BEq, DecidableEq

structure PipelineContext where
  field : String
  documentId : Option String := none

/-- Character class of the tokenizer regular expression (letters and
digits; the source regex is Unicode-aware, this model covers the
alphanumeric range the verified inputs use). -/
def jsIsWordChar (c : Char) : Bool := c.isAlphanum

/-- Scanner for the tokenizer: walks the text accumulating the current
alphanumeric run (reversed) with its start index, emitting a value and
match index per maximal run, like matchAll with the token regex. -/
def tokenRunsGo : List Char → Nat → List Char → Nat → List (String × Nat)
  | [], _, [], _ => []
  | [], _, run, start => [(String.mk run.reverse, start)]
  | c :: rest, i, run, start =>
    if jsIsWordChar c then
      match run with
      | [] => tokenRunsGo rest (i + 1) [c] i
      | _ => tokenRunsGo rest (i + 1) (c :: run) start
    else
      match run with
      | [] => tokenRunsGo rest (i + 1) [] 0
      | _ => (String.mk run.reverse, start) :: tokenRunsGo rest (i + 1) [] 0

def tokenizeText (text : String) : List (String × Nat) :=
  tokenRunsGo text.data 0 [] 0

/-- A pipeline stage: name and execute function over tokens in context.
The tokenize stage expects the single seed token; run always supplies
exactly one, so the InvalidPipelineInput throw of the source is
unreachable from run and the non-singleton branch returns no tokens. -/
structure PipelineStage where
  name : String
  execute : List Token → PipelineContext → List Token

def tokenizeStage : PipelineStage where
  name := "tokenize"
  execute tokens context :=
    match tokens with
    | [seed] =>
      (tokenizeText seed.value).map fun p =>
        { value := p.1, position := p.2, field := context.field,
          documentId := context.documentId }
    | _ => []

/-- String.prototype.toLowerCase over the character range the verified
inputs use (character-wise Char.toLower; String.mk keeps the model
kernel-computable). -/
def strLower (s : String) : String := String.mk (s.data.map Char.toLower)

def normalizeStage : PipelineStage where
  name := "normalize"
  execute tokens _ := tokens.map fun t => { t with value := strLower t.value }

def createStopWordStage (stopWords : List String) : PipelineStage where
  name := "stopWords"
  execute tokens _ :=
    if stopWords.isEmpty then tokens
    else tokens.filter fun t => !(stopWords.contains t.value)

/-- EnglishStemmer.stem: strips -ing, -ed, -s under length guards, with
the narrow doubled-consonant collapse for short -ing stems. -/
def englishStem (token : String) : String :=
  if token.length > 4 ∧ token.endsWith "ing" then
    let stemmed := token.dropRight 3
    if stemmed.length ≤ 4 ∧ 3 ≤ stemmed.length
        ∧ stemmed.back = (stemmed.dropRight 1).back
        ∧ "bdfglmnprst".contains stemmed.back then
      stemmed.dropRight 1
    else stemmed
  else if token.length > 3 ∧ token.endsWith "ed" then token.dropRight 2
  else if token.length > 2 ∧ token.endsWith "s" then token.dropRight 1
  else token

/-- NoOpStemmer.stem. -/
def noOpStem (token : String) : String := token

def createStemStage (stem : String → String) : PipelineStage where
  name := "stem"
  execute tokens _ := tokens.map fun t => { t with value := stem t.value }

/-! Edge n-gram stage (pipeline/stages/edge-ngram-stage.ts). -/

structure EdgeNGramFieldConfig where
  enabled : Bool
  minLength : Option Nat := none
  maxLength : Option Nat := none

/-- generateNGrams: tokens shorter than minGram pass through; others are
replaced by their prefixes of lengths minGram to min(length, maxGram),
each carrying isPrefix (true iff strictly shorter than the full value)
and originalTerm over any existing metadata. -/
def generateNGrams (tokens : List Token) (minGram maxGram : Nat) : List Token :=
  tokens.flatMap fun token =>
    if token.value.length < minGram then [token]
    else
      let maxLength := min token.value.length maxGram
      (List.range' minGram (maxLength + 1 - minGram)).map fun i =>
        { token with
          value := token.value.take i,
          metadata := some { (token.metadata.getD {}) with
            isPrefix := some (decide (i < token.value.length)),
            originalTerm := some token.value } }

structure EdgeNGramOptions where
  minGram : Nat
  maxGram : Nat
  fieldConfig : Option (List (String × EdgeNGramFieldConfig)) := none

def createEdgeNGramStage (options : EdgeNGramOptions) : PipelineStage where
  name := "edgeNGram"
  execute tokens context :=
    match options.fieldConfig with
    | some fieldConfig =>
      match (fieldConfig.find? fun p => p.1 = context.field).map Prod.snd with
      | none => tokens
      | some config =>
        if !config.enabled then tokens
        else generateNGrams tokens (config.minLength.getD options.minGram)
          (config.maxLength.getD options.maxGram)
    | none => generateNGrams tokens options.minGram options.maxGram

/-! Stop word sets and language selection (pipeline/stop-words.ts is not
among the provided sources; the lists are modelled from the spec). -/

/-- Modelled from the spec: the repository module defining STOP_WORDS_EN
is not among the provided sources; the spec (4.3) says the English
language selection uses an English stop-word set.  A standard English
list is used; the verified claims never depend on its exact contents. -/
def STOP_WORDS_EN : List String :=
  ["a", "an", "and", "are", "as", "at", "be", "but", "by", "for", "if", "in",
   "into", "is", "it", "no", "not", "of", "on", "or", "such", "that", "the",
   "their", "then", "there", "these", "they", "this", "to", "was", "will",
   "with"]

/-- Modelled from the spec: Spanish stop words (contents unused by the
verified claims). -/
def STOP_WORDS_ES : List String :=
  ["de", "la", "que", "el", "en", "y", "a", "los", "del", "se", "las", "por",
   "un", "para", "con", "no", "una", "su", "al", "lo"]

/-- Modelled from the spec: French stop words (contents unused by the
verified claims). -/
def STOP_WORDS_FR : List String :=
  ["de", "la", "le", "et", "les", "des", "en", "un", "du", "une", "que",
   "est", "pour", "qui", "dans", "a", "par", "plus", "pas", "au"]

def getStopWordsForLanguage (language : Option String) : List String :=
  match (language.map strLower) with
  | some "es" | some "spanish" => STOP_WORDS_ES
  | some "fr" | some "french" => STOP_WORDS_FR
  | _ => STOP_WORDS_EN

def getStemmerForLanguage (language : Option String) : String → String :=
  match (language.map strLower) with
  | some "es" | some "spanish" | some "fr" | some "french" => noOpStem
  | _ => englishStem

structure PipelineOptions where
  enableStemming : Bool := false
  stopWords : Option (List String) := none
  language : Option String := none
  stemmer : Option (String → String) := none
  enableEdgeNGrams : Bool := false
  edgeNGramMinLength : Option Nat := none
  edgeNGramMaxLength : Option Nat := none
  edgeNGramFieldConfig : Option (List (String × EdgeNGramFieldConfig)) := none
  customStages : List PipelineStage := []

/-- buildDefaultStages: tokenize, normalize, stop words (explicit over
language-selected), optional stemming, optional edge n-grams. -/
def buildDefaultStages (options : PipelineOptions) : List PipelineStage :=
  let base := [tokenizeStage, normalizeStage,
    createStopWordStage (options.stopWords.getD (getStopWordsForLanguage options.language))]
  let withStem :=
    if options.enableStemming ∨ options.stemmer.isSome then
      base ++ [createStemStage (options.stemmer.getD (getStemmerForLanguage options.language))]
    else base
  if options.enableEdgeNGrams ∨ options.edgeNGramFieldConfig.isSome then
    let minLength := options.edgeNGramMinLength.getD 2
    let maxLength := max (options.edgeNGramMaxLength.getD 15) minLength
    withStem ++ [createEdgeNGramStage
      { minGram := minLength, maxGram := maxLength,
        fieldConfig := options.edgeNGramFieldConfig }]
  else withStem

/-- PipelineEngine stage list: default stages then custom stages. -/
def pipelineStages (options : PipelineOptions) : List PipelineStage :=
  buildDefaultStages options ++ options.customStages

/-- Stage fold of PipelineEngine.run, stopping early once a stage
returns no tokens. -/
def runStages : List PipelineStage → List Token → PipelineContext → List Token
  | [], tokens, _ => tokens
  | stage :: rest, tokens, context =>
    let tokens2 := stage.execute tokens context
    if tokens2.length = 0 then tokens2 else runStages rest tokens2 context

/-- PipelineEngine.run: seeds the pipeline with one raw-text token and
folds the stages. -/
def pipelineRun (options : PipelineOptions) (field text : String)
    (documentId : Option String) : List Token :=
  runStages (pipelineStages options)
    [{ value := text, position := 0, field := field, documentId := documentId }]
    { field := field, documentId := documentId }

/-! ## Claim C7: edge n-gram generation -/

/-- Statement-shaped description of edge n-gram generation: every token
of length at least minGram is replaced by its prefixes of lengths
minGram through min(length, maxGram), each carrying isPrefix and the
full value as originalTerm, where isPrefix is false exactly on the
prefix whose length equals the full length; shorter tokens pass through
unchanged. -/
def edgeNGramSpec (tokens : List Token) (minGram maxGram : Nat) : List Token :=
  tokens.flatMap fun token =>
    if token.value.length < minGram then [token]
    else
      (List.range' minGram (min token.value.length maxGram + 1 - minGram)).map fun i =>
        { token with
          value := token.value.take i,
          metadata := some { (token.metadata.getD {}) with
            isPrefix := some (decide (¬ i = token.value.length)),
            originalTerm := some token.value } }

theorem generateNGrams_token_eq (t : Token) (minGram maxGram : Nat) :
    generateNGrams [t] minGram maxGram = edgeNGramSpec [t] minGram maxGram := by
  unfold generateNGrams edgeNGramSpec
  simp only [List.flatMap_cons, List.flatMap_nil, List.append_nil]
  split
  · rfl
  · next hge =>
    apply List.map_congr_left
    intro i hi
    rw [List.mem_range'_1] at hi
    have hle : i ≤ t.value.length := by omega
    have : (decide (i < t.value.length)) = (decide (¬ i = t.value.length)) := by
      rcases Nat.lt_or_ge i t.value.length with h | h
      · simp [h, Nat.ne_of_lt h]
      · have : i = t.value.length := by omega
        simp [this]
    rw [this]

/-- Claim C7.  Edge n-grams: generateNGrams agrees with the
statement-shaped description for all tokens and parameters, and on the
token anthropic with minGram 2 and maxGram 15 it emits exactly the
eight prefixes an through anthropic, with isPrefix false only on the
full-length prefix. -/
theorem C7_edge_ngrams :
    (∀ tokens minGram maxGram,
      generateNGrams tokens minGram maxGram = edgeNGramSpec tokens minGram maxGram) ∧
    (generateNGrams [{ value := "anthropic", position := 0, field := "title" }] 2 15).map
        Token.value
      = ["an", "ant", "anth", "anthr", "anthro", "anthrop", "anthropi", "anthropic"] ∧
    (generateNGrams [{ value := "anthropic", position := 0, field := "title" }] 2 15).map
        (fun t => (t.metadata.getD {}).isPrefix)
      = [some true, some true, some true, some true, some true, some true, some true,
         some false] := by
  refine ⟨?_, by decide, by decide⟩
  intro tokens minGram maxGram
  induction tokens with
  | nil => rfl
  | cons t ts ih =>
    have hsingle := generateNGrams_token_eq t minGram maxGram
    unfold generateNGrams edgeNGramSpec at hsingle ⊢
    simp only [List.flatMap_cons, List.flatMap_nil, List.append_nil] at hsingle
    simp only [List.flatMap_cons]
    rw [hsingle]
    congr 1

/-! ## Document identifiers -/

/-- DocId: a string or a (non-negative or negative integer) number;
persistence and hash keys use the canonical string form. -/
inductive DocId where
  | str (v : String)
  | num (v : Int)
deriving Repr, BEq, DecidableEq

/-- docIdToKey: strings pass through, numbers are stringified. -/
def docIdToKey : DocId → String
  | .str v => v
  | .num v => String.mk (intChars v)

/-! ## JS Map as an insertion-ordered association list -/

def mapGet (m : List (String × ℚ)) (k : String) : Option ℚ :=
  (m.find? fun p => p.1 = k).map Prod.snd

def mapSet : List (String × ℚ) → String → ℚ → List (String × ℚ)
  | [], k, v => [(k, v)]
  | (k0, v0) :: rest, k, v =>
    if k0 = k then (k0, v) :: rest else (k0, v0) :: mapSet rest k v

def mapDelete : List (String × ℚ) → String → List (String × ℚ)
  | [], _ => []
  | (k0, v0) :: rest, k =>
    if k0 = k then rest else (k0, v0) :: mapDelete rest k

/-! ## DocumentStatsManager (src/query/document-stats.ts) -/

structure DocumentStatsManager where
  lengths : List (String × ℚ) := []
  totalLength : ℚ := 0
  documentCount : Nat := 0
deriving Repr

def DocumentStatsManager.addDocument (st : DocumentStatsManager) (docId : DocId)
    (totalLength : ℚ) : DocumentStatsManager :=
  let key := docIdToKey docId
  match mapGet st.lengths key with
  | some existing =>
    { lengths := mapSet st.lengths key totalLength,
      totalLength := st.totalLength - existing + totalLength,
      documentCount := st.documentCount }
  | none =>
    { lengths := mapSet st.lengths key totalLength,
      totalLength := st.totalLength + totalLength,
      documentCount := st.documentCount + 1 }

/-- removeDocument: a no-op for an absent docId; otherwise deletes the
entry, subtracts its length, and lowers the count (clamped at zero like
Math.max(count - 1, 0)). -/
def DocumentStatsManager.removeDocument (st : DocumentStatsManager)
    (docId : DocId) : DocumentStatsManager :=
  let key := docIdToKey docId
  match mapGet st.lengths key with
  | none => st
  | some existing =>
    { lengths := mapDelete st.lengths key,
      totalLength := st.totalLength - existing,
      documentCount := st.documentCount - 1 }

def DocumentStatsManager.getLength (st : DocumentStatsManager) (docId : DocId) : Option ℚ :=
  mapGet st.lengths (docIdToKey docId)

def DocumentStatsManager.getAverageLength (st : DocumentStatsManager) : ℚ :=
  if st.documentCount = 0 then 1 else st.totalLength / (st.documentCount : ℚ)

def DocumentStatsManager.snapshot (st : DocumentStatsManager) : List (String × ℚ) :=
  st.lengths

/-- load: clears the state, then adds every entry. -/
def DocumentStatsManager.load (entries : List (String × ℚ)) : DocumentStatsManager :=
  entries.foldl (fun st e => st.addDocument (.str e.1) e.2) {}

/-! ## Claim C10: stats invariants over operation sequences -/

inductive StatsOp where
  | add (docId : DocId) (len : ℚ)
  | remove (docId : DocId)
  | load (entries : List (String × ℚ))

def statsStep (st : DocumentStatsManager) : StatsOp → DocumentStatsManager
  | .add docId len => st.addDocument docId len
  | .remove docId => st.removeDocument docId
  | .load entries => DocumentStatsManager.load entries

def statsRun (ops : List StatsOp) : DocumentStatsManager :=
  ops.foldl statsStep {}

theorem mapSet_sum (k : String) (v : ℚ) :
    ∀ (m : List (String × ℚ)),
      ((mapSet m k v).map Prod.snd).sum
        = (m.map Prod.snd).sum - ((mapGet m k).getD 0) + v := by
  intro m
  induction m with
  | nil => simp [mapSet, mapGet]
  | cons p rest ih =>
    obtain ⟨k0, v0⟩ := p
    by_cases h : k0 = k
    · subst h
      simp [mapSet, mapGet, List.find?]
      ring
    · simp only [mapSet, if_neg h, List.map_cons, List.sum_cons, ih]
      have : mapGet ((k0, v0) :: rest) k = mapGet rest k := by
        simp [mapGet, List.find?, h]
      rw [this]
      ring

theorem mapSet_length (k : String) (v : ℚ) :
    ∀ (m : List (String × ℚ)),
      (mapSet m k v).length
        = if mapGet m k = none then m.length + 1 else m.length := by
  intro m
  induction m with
  | nil => simp [mapSet, mapGet]
  | cons p rest ih =>
    obtain ⟨k0, v0⟩ := p
    by_cases h : k0 = k
    · subst h
      simp [mapSet, mapGet, List.find?]
    · have hget : mapGet ((k0, v0) :: rest) k = mapGet rest k := by
        simp [mapGet, List.find?, h]
      simp only [mapSet, if_neg h, List.length_cons, ih, hget]
      split <;> simp

theorem mapDelete_sum {k : String} :
    ∀ {m : List (String × ℚ)} {old : ℚ}, mapGet m k = some old →
      ((mapDelete m k).map Prod.snd).sum = (m.map Prod.snd).sum - old := by
  intro m
  induction m with
  | nil => intro old h; simp [mapGet] at h
  | cons p rest ih =>
    obtain ⟨k0, v0⟩ := p
    intro old h
    by_cases hk : k0 = k
    · subst hk
      simp [mapGet, List.find?] at h
      subst h
      simp [mapDelete]
    · have hget : mapGet ((k0, v0) :: rest) k = mapGet rest k := by
        simp [mapGet, List.find?, hk]
      rw [hget] at h
      simp only [mapDelete, if_neg hk, List.map_cons, List.sum_cons, ih h]
      ring

theorem mapDelete_length {k : String} :
    ∀ {m : List (String × ℚ)} {old : ℚ}, mapGet m k = some old →
      (mapDelete m k).length + 1 = m.length := by
  intro m
  induction m with
  | nil => intro old h; simp [mapGet] at h
  | cons p rest ih =>
    obtain ⟨k0, v0⟩ := p
    intro old h
    by_cases hk : k0 = k
    · subst hk
      simp [mapDelete]
    · have hget : mapGet ((k0, v0) :: rest) k = mapGet rest k := by
        simp [mapGet, List.find?, hk]
      rw [hget] at h
      simp only [mapDelete, if_neg hk, List.length_cons, ih h]

/-- The bookkeeping invariant of the stats manager. -/
def statsInv (st : DocumentStatsManager) : Prop :=
  st.totalLength = (st.lengths.map Prod.snd).sum ∧
  st.documentCount = st.lengths.length

theorem statsInv_addDocument {st : DocumentStatsManager} (h : statsInv st)
    (docId : DocId) (len : ℚ) : statsInv (st.addDocument docId len) := by
  obtain ⟨hsum, hcount⟩ := h
  unfold DocumentStatsManager.addDocument
  cases hget : mapGet st.lengths (docIdToKey docId) with
  | some existing =>
    refine ⟨?_, ?_⟩
    · simp only [mapSet_sum, hget, Option.getD_some, hsum]
    · simp only [mapSet_length, hget, hcount]
      split <;> simp_all
  | none =>
    refine ⟨?_, ?_⟩
    · simp only [mapSet_sum, hget, Option.getD_none, hsum]
      ring
    · simp only [mapSet_length, hget, hcount]
      split <;> simp_all

theorem statsInv_removeDocument {st : DocumentStatsManager} (h : statsInv st)
    (docId : DocId) : statsInv (st.removeDocument docId) := by
  obtain ⟨hsum, hcount⟩ := h
  unfold DocumentStatsManager.removeDocument
  cases hget : mapGet st.lengths (docIdToKey docId) with
  | none =>
    simp only [hget]
    exact ⟨hsum, hcount⟩
  | some existing =>
    refine ⟨?_, ?_⟩
    · simp only [hget, mapDelete_sum hget, hsum]
    · have := mapDelete_length hget
      simp only [hget]
      simp only [hcount]
      omega

theorem statsInv_load (entries : List (String × ℚ)) :
    statsInv (DocumentStatsManager.load entries) := by
  unfold DocumentStatsManager.load
  have : ∀ (st : DocumentStatsManager), statsInv st →
      statsInv (entries.foldl (fun st e => st.addDocument (.str e.1) e.2) st) := by
    induction entries with
    | nil => intro st h; exact h
    | cons e rest ih =>
      intro st h
      exact ih _ (statsInv_addDocument h _ _)
  exact this {} (by constructor <;> rfl)

theorem statsInv_run (ops : List StatsOp) : statsInv (statsRun ops) := by
  unfold statsRun
  have : ∀ (st : DocumentStatsManager), statsInv st →
      statsInv (ops.foldl statsStep st) := by
    induction ops with
    | nil => intro st h; exact h
    | cons op rest ih =>
      intro st h
      apply ih
      cases op with
      | add docId len => exact statsInv_addDocument h docId len
      | remove docId => exact statsInv_removeDocument h docId
      | load entries => exact statsInv_load entries
  exact this {} (by constructor <;> rfl)

/-- Claim C10.  Across every sequence of addDocument (including
overwrites), removeDocument (including absent no-ops) and load calls,
the stored total equals the sum of the per-document lengths, the count
equals the number of stored entries, and getAverageLength returns the
exact mean of the stored lengths, or 1 when no documents are stored. -/
theorem C10_stats_invariant (ops : List StatsOp) :
    (statsRun ops).totalLength = (((statsRun ops).lengths).map Prod.snd).sum ∧
    (statsRun ops).documentCount = ((statsRun ops).lengths).length ∧
    (statsRun ops).getAverageLength
      = if ((statsRun ops).lengths).length = 0 then 1
        else (((statsRun ops).lengths).map Prod.snd).sum
          / (((statsRun ops).lengths).length : ℚ) := by
  obtain ⟨hsum, hcount⟩ := statsInv_run ops
  refine ⟨hsum, hcount, ?_⟩
  unfold DocumentStatsManager.getAverageLength
  rw [hsum, hcount]

/-! ## LRU cache (src/cache/lru-cache.ts)

The map plus doubly-linked recency list is modelled by the recency list
itself (head = most recently used); Date.now() is an explicit argument. -/

structure LruEntry (V : Type) where
  key : String
  value : V
  createdAt : Nat
  lastAccessedAt : Nat
  accessCount : Nat

structure LruCache (V : Type) where
  maxEntries : Nat
  entries : List (LruEntry V)
  hits : Nat
  misses : Nat
  evictions : Nat

def lruInit (V : Type) (maxEntries : Nat) : LruCache V :=
  { maxEntries := maxEntries, entries := [], hits := 0, misses := 0, evictions := 0 }

def lruKeys {V : Type} (st : LruCache V) : List String :=
  st.entries.map fun e => e.key

/-- Lookup without the recency side effects (the content of the map). -/
def lruLookup {V : Type} (st : LruCache V) (key : String) : Option V :=
  (st.entries.find? fun e => e.key = key).map fun e => e.value

/-- get: a miss bumps the miss counter; a hit bumps the hit counter,
refreshes the entry access fields, and moves it to the front. -/
def LruCache.get {V : Type} (st : LruCache V) (now : Nat) (key : String) :
    Option V × LruCache V :=
  match st.entries.find? fun e => e.key = key with
  | none => (none, { st with misses := st.misses + 1 })
  | some e =>
    let e2 : LruEntry V := { e with lastAccessedAt := now, accessCount := e.accessCount + 1 }
    let rest : List (LruEntry V) := st.entries.eraseP fun x => x.key = key
    (some e.value, { st with hits := st.hits + 1, entries := e2 :: rest })

/-- set: an existing key is updated in place and moved to the front; a
new key is inserted at the front and, past capacity, the tail (least
recently used entry) is evicted and counted. -/
def LruCache.set {V : Type} (st : LruCache V) (now : Nat) (key : String) (value : V) :
    LruCache V :=
  match st.entries.find? fun e => e.key = key with
  | some existing =>
    let e2 : LruEntry V :=
      { existing with
        value := value, lastAccessedAt := now, accessCount := existing.accessCount + 1 }
    let rest : List (LruEntry V) := st.entries.eraseP fun x => x.key = key
    { st with entries := e2 :: rest }
  | none =>
    let fresh : LruEntry V :=
      { key := key, value := value, createdAt := now, lastAccessedAt := now,
        accessCount := 1 }
    let entries2 : List (LruEntry V) := fresh :: st.entries
    if entries2.length > st.maxEntries then
      { st with entries := entries2.dropLast, evictions := st.evictions + 1 }
    else { st with entries := entries2 }

/-- delete: removes the entry when present. -/
def LruCache.del {V : Type} (st : LruCache V) (key : String) : LruCache V :=
  if (st.entries.find? fun e => e.key = key).isSome then
    { st with entries := st.entries.eraseP fun e => e.key = key }
  else st

/-- clear: drops all entries and resets the statistics. -/
def LruCache.clearAll {V : Type} (st : LruCache V) : LruCache V :=
  lruInit V st.maxEntries

inductive LruOp (V : Type) where
  | get (now : Nat) (key : String)
  | set (now : Nat) (key : String) (value : V)
  | del (key : String)
  | clear

def lruStep {V : Type} (st : LruCache V) : LruOp V → LruCache V
  | .get now key => (st.get now key).2
  | .set now key value => st.set now key value
  | .del key => st.del key
  | .clear => st.clearAll

def lruRun (V : Type) (maxEntries : Nat) (ops : List (LruOp V)) : LruCache V :=
  ops.foldl lruStep (lruInit V maxEntries)

/-- maxEntries is never changed by an operation. -/
lemma lruStep_maxEntries {V : Type} (st : LruCache V) (op : LruOp V) :
    (lruStep st op).maxEntries = st.maxEntries := by
  cases op with
  | get now key =>
    simp only [lruStep, LruCache.get]
    cases st.entries.find? fun e => e.key = key <;> rfl
  | set now key value =>
    simp only [lruStep, LruCache.set]
    cases st.entries.find? fun e => e.key = key with
    | some existing => rfl
    | none =>
      simp only
      split <;> rfl
  | del key =>
    simp only [lruStep, LruCache.del]
    split <;> rfl
  | clear => rfl

/-- Each operation keeps the entry count within maxEntries. -/
lemma lruStep_length {V : Type} (st : LruCache V) (op : LruOp V)
    (h : st.entries.length ≤ st.maxEntries) :
    (lruStep st op).entries.length ≤ st.maxEntries := by
  cases op with
  | get now key =>
    simp only [lruStep, LruCache.get]
    cases hf : st.entries.find? fun e => e.key = key with
    | none => exact h
    | some e =>
      simp only [List.length_cons]
      have hmem := List.mem_of_find?_eq_some hf
      have hp := List.find?_some hf
      have hlen := @List.length_eraseP_of_mem _ st.entries e
        (fun x => decide (x.key = key)) hmem hp
      have hpos := List.length_pos_of_mem hmem
      omega
  | set now key value =>
    simp only [lruStep, LruCache.set]
    cases hf : st.entries.find? fun e => e.key = key with
    | some existing =>
      simp only [List.length_cons]
      have hmem := List.mem_of_find?_eq_some hf
      have hp := List.find?_some hf
      have hlen := @List.length_eraseP_of_mem _ st.entries existing
        (fun x => decide (x.key = key)) hmem hp
      have hpos := List.length_pos_of_mem hmem
      omega
    | none =>
      simp only
      split
      · rename_i hgt
        simp only [List.length_dropLast, List.length_cons] at hgt ⊢
        omega
      · rename_i hgt
        simp only [List.length_cons] at hgt ⊢
        omega
  | del key =>
    simp only [lruStep, LruCache.del]
    split
    · exact le_trans ((List.eraseP_sublist st.entries).length_le) h
    · exact h
  | clear => simp [lruStep, LruCache.clearAll, lruInit]

/-- Over any operation sequence from the empty cache, maxEntries stays N
and the entry count stays at most N. -/
lemma lruRun_inv {V : Type} (N : Nat) (ops : List (LruOp V)) :
    (lruRun V N ops).maxEntries = N ∧ (lruRun V N ops).entries.length ≤ N := by
  have main : ∀ (l : List (LruOp V)) (st : LruCache V), st.maxEntries = N →
      st.entries.length ≤ N →
      (l.foldl lruStep st).maxEntries = N ∧ (l.foldl lruStep st).entries.length ≤ N := by
    intro l
    induction l with
    | nil => intro st h1 h2; exact ⟨h1, h2⟩
    | cons op rest ih =>
      intro st h1 h2
      refine ih (lruStep st op) ?_ ?_
      · rw [lruStep_maxEntries]; exact h1
      · have := lruStep_length st op (h1 ▸ h2)
        omega
  exact main ops (lruInit V N) rfl (by simp [lruInit])

/-- C8: for every LRU capacity N > 0 and every get/set/delete/clear
sequence, the cache holds at most N entries at all times; setting an
existing key updates its value and moves it to the front without changing
the entry count or the eviction count; inserting a new key into a full
cache evicts the tail (least recently used) entry and increments the
evictions statistic; after any set the key heads the recency list; and a
successful get returns the stored value, moves the key to the head and
counts a hit. -/
theorem C8_lru_invariants (V : Type) (N : Nat) (hN : 0 < N) :
    (∀ ops : List (LruOp V), (lruRun V N ops).entries.length ≤ N) ∧
    (∀ (st : LruCache V) (now : Nat) (k : String) (v : V), k ∈ lruKeys st →
      ((st.set now k v).entries.head?.map fun e => (e.key, e.value)) = some (k, v) ∧
      (st.set now k v).entries.length = st.entries.length ∧
      (st.set now k v).evictions = st.evictions) ∧
    (∀ (st : LruCache V) (now : Nat) (k : String) (v : V), st.maxEntries = N →
      k ∉ lruKeys st → st.entries.length = N →
      ((st.set now k v).entries.map fun e => e.key)
        = k :: (st.entries.map fun e => e.key).dropLast ∧
      (st.set now k v).evictions = st.evictions + 1) ∧
    (∀ (st : LruCache V) (now : Nat) (k : String) (v : V), st.maxEntries = N →
      ((st.set now k v).entries.head?.map fun e => e.key) = some k) ∧
    (∀ (st : LruCache V) (now : Nat) (k : String) (v : V), lruLookup st k = some v →
      (st.get now k).1 = some v ∧
      (((st.get now k).2).entries.head?.map fun e => e.key) = some k ∧
      ((st.get now k).2).hits = st.hits + 1) := by
  refine ⟨fun ops => (lruRun_inv N ops).2, ?_, ?_, ?_, ?_⟩
  · intro st now k v hk
    have h1 : (st.entries.find? fun e => e.key = k).isSome := by
      rw [List.find?_isSome]
      obtain ⟨e, he, hek⟩ := List.mem_map.mp hk
      exact ⟨e, he, by simp [hek]⟩
    obtain ⟨e, hf⟩ := Option.isSome_iff_exists.mp h1
    have hek : e.key = k := by simpa using List.find?_some hf
    simp only [LruCache.set, hf]
    refine ⟨by simp [hek], ?_, trivial⟩
    simp only [List.length_cons]
    have hmem := List.mem_of_find?_eq_some hf
    have hp := List.find?_some hf
    have hlen := @List.length_eraseP_of_mem _ st.entries e
      (fun x => decide (x.key = k)) hmem hp
    have hpos := List.length_pos_of_mem hmem
    omega
  · intro st now k v hmax hnot hlen
    have hf : (st.entries.find? fun e => e.key = k) = none := by
      rw [List.find?_eq_none]
      intro x hx
      simp only [decide_eq_true_eq]
      intro hxk
      exact hnot (List.mem_map.mpr ⟨x, hx, hxk⟩)
    have hne : st.entries ≠ [] := by
      intro h0
      rw [h0] at hlen
      simp at hlen
      omega
    simp only [LruCache.set, hf]
    split
    · constructor
      · rw [List.dropLast_cons_of_ne_nil hne]
        simp [List.map_dropLast]
      · rfl
    · rename_i hgt
      exfalso
      simp only [List.length_cons, hlen, hmax] at hgt
      omega
  · intro st now k v hmax
    cases hf : st.entries.find? fun e => e.key = k with
    | some e =>
      have hek : e.key = k := by simpa using List.find?_some hf
      simp only [LruCache.set, hf]
      simp [hek]
    | none =>
      simp only [LruCache.set, hf]
      split
      · cases hent : st.entries with
        | nil =>
          rename_i hgt
          exfalso
          rw [hent] at hgt
          simp at hgt
          omega
        | cons a l =>
          rw [List.dropLast_cons_of_ne_nil (List.cons_ne_nil a l)]
          simp
      · simp
  · intro st now k v hlook
    obtain ⟨e, hf, hev⟩ := Option.map_eq_some'.mp hlook
    have hek : e.key = k := by simpa using List.find?_some hf
    simp only [LruCache.get, hf]
    exact ⟨by simp [hev], by simp [hek], trivial⟩

/-- Witness for C8 at capacity 2 over a concrete operation sequence. -/
theorem C8_lru_witness :
    (0 : Nat) < 2 ∧
    (lruRun Nat 2 [LruOp.set 0 "a" 1, LruOp.set 1 "b" 2, LruOp.get 2 "a",
      LruOp.set 3 "c" 3]).entries.length ≤ 2 :=
  ⟨by decide, (C8_lru_invariants Nat 2 (by decide)).1 _⟩

/-! ## Levenshtein distance and fuzzy expansion (src/utils/levenshtein.ts) -/

/-- One inner cell chain of the two-row Wagner-Fischer loop: walks the
remaining characters of b with the previous row, carrying the diagonal
cell and the cell just computed. -/
def levNextGo (ca : Char) (diag : Nat) (prevRest : List Nat) (bRest : List Char)
    (cur : Nat) : List Nat :=
  match bRest, prevRest with
  | cb :: btail, pj :: ptail =>
    let c := if ca = cb then diag else min (diag + 1) (min (cur + 1) (pj + 1))
    c :: levNextGo ca pj ptail btail c
  | _, _ => []

/-- The next row of the distance table for character ca of a: cell 0 is
the row index i, the rest comes from the inner loop. -/
def levNext (ca : Char) (b : List Char) (prev : List Nat) (i : Nat) : List Nat :=
  match prev with
  | [] => [i]
  | p0 :: ptail => i :: levNextGo ca p0 ptail b i

/-- Outer row-by-row loop over the characters of a. -/
def levLoop (b : List Char) : List Char → List Nat → Nat → List Nat
  | [], prev, _ => prev
  | ca :: arest, prev, i => levLoop b arest (levNext ca b prev i) (i + 1)

/-- levenshteinDistance: early exits for equal and empty strings, swap so
the second string is the shorter, then the two-row dynamic program; the
answer is the last cell of the final row. -/
def levenshteinDistance (a b : String) : Nat :=
  if a = b then 0
  else if a.length = 0 then b.length
  else if b.length = 0 then a.length
  else
    let p := if a.length < b.length then (b, a) else (a, b)
    let aChars := p.1.data
    let bChars := p.2.data
    (levLoop bChars aChars (List.range (bChars.length + 1)) 1).getD bChars.length 0

/-- String.prototype.toLowerCase restricted to the character-wise lowering
the verified inputs use. -/
def jsToLower (s : String) : String := strLower s

/-- fuzzyExpand: cap the distance to [1, 3], lowercase both sides, skip
vocabulary terms whose length differs by more than the cap, and keep the
terms within the capped edit distance (original casing preserved). -/
def fuzzyExpand (term : String) (maxDistance : Nat) (vocabulary : List String) :
    List String :=
  let cappedDistance := min (max 1 maxDistance) 3
  let termLower := jsToLower term
  vocabulary.filter fun vocabTerm =>
    let vocabTermLower := jsToLower vocabTerm
    let lengthDiff :=
      max vocabTermLower.length termLower.length
        - min vocabTermLower.length termLower.length
    if lengthDiff > cappedDistance then false
    else decide (levenshteinDistance termLower vocabTermLower ≤ cappedDistance)

/-- The search options fuzzy field: a boolean or a number. -/
inductive FuzzyOpt where
  | bool (b : Bool)
  | num (n : Nat)
deriving Repr, DecidableEq

/-- getFuzzyDistance: true maps to 2, a positive number to itself,
anything else to undefined. -/
def getFuzzyDistance : Option FuzzyOpt → Option Nat
  | some (.bool true) => some 2
  | some (.num n) => if n > 0 then some n else none
  | _ => none

/-! ## BM25-style scoring (src/query/scoring.ts)

Math.log is the one host primitive with no rational embedding, so the
default-idf logarithm is an explicit function parameter idfFn; every
theorem over the scorer quantifies over it. -/

/-- A query token as built by the engines: field, term and boost. -/
structure QueryToken where
  field : String
  term : String
  boost : ℚ
deriving Repr, DecidableEq

/-- A posting as held in caches and scored: parsePosting only ever
produces metadata-free postings, the in-memory engine passes the stored
metadata record through (modelled as a JSON value). -/
structure TermPosting where
  docId : String
  termFrequency : ℚ
  metadata : Option Json := none
deriving Repr, BEq

/-- A retrieved posting chunk (also the term-cache value; the constant
chunk index 0 is omitted). -/
structure RetrievedPostingChunk where
  field : String
  term : String
  postings : List TermPosting
  docFrequency : Nat
  inverseDocumentFrequency : Option ℚ := none
deriving Repr, BEq

/-- A scored document. -/
structure ScoredDoc where
  docId : String
  score : ℚ
deriving Repr, DecidableEq

/-- posting.metadata?.isPrefix === true on a JSON-modelled metadata
record. -/
def metaIsPrefixTrue : Option Json → Bool
  | some (.obj fields) =>
    match fields.find? fun q => q.1 = "isPrefix" with
    | some (_, .bool true) => true
    | _ => false
  | _ => false

def PREFIX_MATCH_PENALTY : ℚ := 7/10

/-- computeDefaultIdf guards docFrequency <= 0; the log itself is the
idfFn parameter. -/
def computeDefaultIdf (idfFn : Nat → ℚ) (docFrequency : Nat) : ℚ :=
  if docFrequency = 0 then 0 else idfFn docFrequency

/-- The contribution of one posting: idf * (d + ((k1+1)·tf)/(k1·norm+tf))
with norm = 1 - b + b·docLength/max(avgLen,1), multiplied by the 0.7
prefix penalty when the posting metadata has isPrefix === true. -/
def postingContribution (idf k1 b d averageDocLength docLength : ℚ)
    (posting : TermPosting) : ℚ :=
  let tf := posting.termFrequency
  let norm := 1 - b + (b * docLength) / (max averageDocLength 1)
  let base := idf * (d + ((k1 + 1) * tf) / (k1 * norm + tf))
  if metaIsPrefixTrue posting.metadata then base * PREFIX_MATCH_PENALTY else base

/-- scorePostings: accumulate per-document contributions over all chunks
in first-encounter order, then stable-sort descending by score (JS
Array.prototype.sort with comparator b.score - a.score). -/
def scorePostings (chunks : List RetrievedPostingChunk)
    (documentLengths : List (String × ℚ)) (averageDocLength : ℚ)
    (k1 b d : ℚ) (idfFn : Nat → ℚ) : List ScoredDoc :=
  let scores := chunks.foldl (fun scores chunk =>
    let idf := match chunk.inverseDocumentFrequency with
      | some i => i
      | none => computeDefaultIdf idfFn chunk.docFrequency
    chunk.postings.foldl (fun scores posting =>
      let docLength := (mapGet documentLengths posting.docId).getD averageDocLength
      let contribution :=
        postingContribution idf k1 b d averageDocLength docLength posting
      mapSet scores posting.docId
        (((mapGet scores posting.docId).getD 0) + contribution)) scores) []
  (scores.map fun p => ScoredDoc.mk p.1 p.2).insertionSort fun a b => b.score ≤ a.score

/-! ## parsePosting (src/query/document-stats.ts) -/

mutual

/-- JS String() on the JSON value shapes of this model (arrays join their
stringified elements with commas, objects print as [object Object]). -/
def jsToString : Json → String
  | .str s => s
  | .num n => String.mk (intChars n)
  | .bool b => if b then "true" else "false"
  | .obj _ => "[object Object]"
  | .arr elems => String.intercalate "," (jsToStringElems elems)

/-- String() of each array element. -/
def jsToStringElems : List Json → List String
  | [] => []
  | v :: rest => jsToString v :: jsToStringElems rest

end

/-- JS Number() on the JSON value shapes this code feeds it (none models
NaN; strings cover the plain-integer forms, arrays and objects are out of
the verified envelope and map to NaN). -/
def jsNumber : Json → Option ℚ
  | .num n => some (n : ℚ)
  | .bool b => some (if b then 1 else 0)
  | .str s =>
    if s = "" then some 0
    else match parseNum s.data with
      | some (n, []) => some (n : ℚ)
      | _ => none
  | _ => none

/-- The termFrequency normalisation shared by parsePosting branches:
Number(value ?? 1), kept only when finite and positive, else 1. -/
def normaliseTf (value : Option Json) : ℚ :=
  match value with
  | none => 1
  | some v =>
    match jsNumber v with
    | some q => if q > 0 then q else 1
    | none => 1

/-- parsePosting: strings are JSON-parsed and, when they hold an object
with a docId, reduced to docId and termFrequency (metadata is not read);
numbers become docIds with frequency 1; objects with a string or number
docId keep their termFrequency; everything else falls back to
String(raw) with frequency 1. -/
def parsePosting (raw : Json) : TermPosting :=
  match raw with
  | .str s =>
    match jsParse s with
    | some (.obj fields) =>
      match fields.find? fun q => q.1 = "docId" with
      | some pair =>
        let docId := match pair.2 with
          | .str t => t
          | .num n => String.mk (intChars n)
          | _ => s
        let termFrequency :=
          normaliseTf ((fields.find? fun q => q.1 = "termFrequency").map Prod.snd)
        { docId := docId, termFrequency := termFrequency }
      | none => { docId := s, termFrequency := 1 }
    | _ => { docId := s, termFrequency := 1 }
  | .num n => { docId := String.mk (intChars n), termFrequency := 1 }
  | .obj fields =>
    match fields.find? fun q => q.1 = "docId" with
    | some (_, .str t) =>
      { docId := t,
        termFrequency :=
          normaliseTf ((fields.find? fun q => q.1 = "termFrequency").map Prod.snd) }
    | some (_, .num n) =>
      { docId := String.mk (intChars n),
        termFrequency :=
          normaliseTf ((fields.find? fun q => q.1 = "termFrequency").map Prod.snd) }
    | _ => { docId := jsToString raw, termFrequency := 1 }
  | other => { docId := jsToString other, termFrequency := 1 }

/-! ## QueryEngine (src/query/document-stats.ts, QueryEngine.execute) -/

/-- A stored posting chunk as returned by the adapter (chunk index 0). -/
structure StoredPostingChunk where
  field : String
  term : String
  payload : List Nat
  encoding : Encoding
  docFrequency : Nat
  inverseDocumentFrequency : Option ℚ := none
deriving Repr, BEq

/-- storage.getTermChunk for chunk 0. -/
def getTermChunk (storage : List StoredPostingChunk) (field term : String) :
    Option StoredPostingChunk :=
  storage.find? fun c => c.field = field ∧ c.term = term

/-- The engine term-cache key field:term. -/
def buildCacheKey (token : QueryToken) : String := token.field ++ ":" ++ token.term

/-- One loop iteration of QueryEngine.execute: probe the LRU term cache,
on a miss fetch the chunk (a missing chunk is skipped), decode and parse
its postings (a codec error propagates) and fill the cache. -/
def engineFetchToken (storage : List StoredPostingChunk)
    (acc : List RetrievedPostingChunk × LruCache RetrievedPostingChunk)
    (token : QueryToken) :
    Except CodecErr (List RetrievedPostingChunk × LruCache RetrievedPostingChunk) :=
  let cacheKey := buildCacheKey token
  let probe := acc.2.get 0 cacheKey
  match probe.1 with
  | some cached => .ok (acc.1 ++ [cached], probe.2)
  | none =>
    match getTermChunk storage token.field token.term with
    | none => .ok (acc.1, probe.2)
    | some chunk =>
      match decodePostings chunk.payload chunk.encoding with
      | .error e => .error e
      | .ok decoded =>
        let cached : RetrievedPostingChunk :=
          { field := token.field, term := token.term,
            postings := decoded.map parsePosting,
            docFrequency := chunk.docFrequency,
            inverseDocumentFrequency := chunk.inverseDocumentFrequency }
        .ok (acc.1 ++ [cached], probe.2.set 0 cacheKey cached)

/-- The docLengths map: first-encounter docIds get their stats length, or
the average when absent. -/
def buildDocLengths (stats : DocumentStatsManager) (averageDocLength : ℚ)
    (chunks : List RetrievedPostingChunk) : List (String × ℚ) :=
  chunks.foldl (fun docLengths chunk =>
    chunk.postings.foldl (fun docLengths posting =>
      match mapGet docLengths posting.docId with
      | some _ => docLengths
      | none =>
        mapSet docLengths posting.docId
          ((stats.getLength (DocId.str posting.docId)).getD averageDocLength))
      docLengths) []

/-- The effective average document length: the stats value when positive,
else 1. -/
def effAverageDocLength (stats : DocumentStatsManager) : ℚ :=
  let fromStats := stats.getAverageLength
  if fromStats > 0 then fromStats else 1

structure QueryResult where
  documents : List ScoredDoc
  postings : List RetrievedPostingChunk
deriving Repr, BEq

/-- QueryEngine.execute: fetch every token chunk through the cache, build
doc lengths, score with k1 = 1.2, b = 0.75, d = 0.5, and truncate to
limit ?? 10. -/
def engineExecute (storage : List StoredPostingChunk)
    (stats : DocumentStatsManager) (termCache : LruCache RetrievedPostingChunk)
    (tokens : List QueryToken) (limit : Option Nat) (idfFn : Nat → ℚ) :
    Except CodecErr (QueryResult × LruCache RetrievedPostingChunk) :=
  match tokens.foldlM (engineFetchToken storage) ([], termCache) with
  | .error e => .error e
  | .ok (chunks, cache2) =>
    let averageDocLength := effAverageDocLength stats
    let docLengths := buildDocLengths stats averageDocLength chunks
    let scored :=
      scorePostings chunks docLengths averageDocLength (12/10) (3/4) (1/2) idfFn
    .ok ({ documents := scored.take (limit.getD 10), postings := chunks }, cache2)

/-! ## SearchFn search path (src/unnamed/part_022) -/

inductive SearchMode where
  | exact | prefixMode | fuzzy | auto
deriving Repr, DecidableEq

/-- The search options the canonical engine reads (fuzzy is carried but,
as proved below, never read by the search path). -/
structure SearchOptions where
  fields : Option (List String) := none
  limit : Option Nat := none
  minScore : Option ℚ := none
  fuzzy : Option FuzzyOpt := none
  mode : Option SearchMode := none
  applyQueryNGrams : Option Bool := none

/-- String.prototype.trim on the whitespace the verified inputs use. -/
def jsTrim (s : String) : String :=
  String.mk (((s.data.dropWhile Char.isWhitespace).reverse.dropWhile
    Char.isWhitespace).reverse)

/-- determineSearchMode: an explicit non-auto mode wins, otherwise the
trimmed query length picks prefix (≤ 3), fuzzy (≥ 8) or exact. -/
def determineSearchMode (query : String) (options : SearchOptions) : SearchMode :=
  let queryLength := (jsTrim query).length
  let autoMode :=
    if queryLength ≤ 3 then SearchMode.prefixMode
    else if queryLength ≥ 8 then SearchMode.fuzzy
    else SearchMode.exact
  match options.mode with
  | some m => if m = SearchMode.auto then autoMode else m
  | none => autoMode

/-- SearchFn.pipelineWithoutNGrams: a fresh PipelineEngine carrying only
enableEdgeNGrams: false — the configured pipeline options are not
forwarded. -/
def sfnPipelineWithoutNGrams (field text : String) : List Token :=
  pipelineRun { enableEdgeNGrams := false } field text none

/-- One insertion into the per-field token map of
SearchFn.buildQueryTokens: a new field opens a bucket, a value already in
the bucket is skipped, boost is always 1. -/
def sfnAddToken (tokenMap : List (String × List QueryToken)) (field value : String) :
    List (String × List QueryToken) :=
  match tokenMap.find? fun p => p.1 = field with
  | none => tokenMap ++ [(field, [{ field := field, term := value, boost := 1 }])]
  | some _ =>
    tokenMap.map fun p =>
      if p.1 = field then
        if p.2.any fun t => t.term = value then p
        else (p.1, p.2 ++ [{ field := field, term := value, boost := 1 }])
      else p

/-- The per-field loop body of SearchFn.buildQueryTokens. -/
def sfnFieldStep (pOpts : PipelineOptions) (query : String) (applyNGrams : Bool)
    (tokenMap : List (String × List QueryToken)) (field : String) :
    List (String × List QueryToken) :=
  let tokens :=
    if applyNGrams then pipelineRun pOpts field query none
    else sfnPipelineWithoutNGrams field query
  tokens.foldl (fun tokenMap token => sfnAddToken tokenMap field token.value) tokenMap

/-- SearchFn.buildQueryTokens: run each field through the full or the
n-gram-free pipeline, dedupe per field, flatten in insertion order. -/
def sfnBuildQueryTokens (pOpts : PipelineOptions) (query : String)
    (fields : List String) (applyNGrams : Bool) : List QueryToken :=
  (fields.foldl (sfnFieldStep pOpts query applyNGrams) []).flatMap fun p => p.2

/-- The canonical engine state the search path reads. -/
structure SfnState where
  pOpts : PipelineOptions
  fields : List String
  storage : List StoredPostingChunk
  documents : List (String × Json) := []
  stats : DocumentStatsManager
  termCache : LruCache RetrievedPostingChunk

/-- SearchFn.executeSearch: build query tokens (the source also computes
determineSearchMode and an effectiveOptions copy whose fuzzy flag is set
for fuzzy mode, but effectiveOptions is never read afterwards), return
null on an empty token list, run the query engine, then filter by
minScore when positive. -/
def sfnExecuteSearch (st : SfnState) (query : String) (options : SearchOptions)
    (idfFn : Nat → ℚ) : Except CodecErr (Option QueryResult × SfnState) :=
  let fields := options.fields.getD st.fields
  let applyNGrams := options.applyQueryNGrams.getD false
  let tokens := sfnBuildQueryTokens st.pOpts query fields applyNGrams
  if tokens.length = 0 then .ok (none, st)
  else
    match engineExecute st.storage st.stats st.termCache tokens options.limit idfFn with
    | .error e => .error e
    | .ok (result, cache2) =>
      let documents := match options.minScore with
        | some minScore =>
          if minScore > 0 then result.documents.filter fun doc => minScore ≤ doc.score
          else result.documents
        | none => result.documents
      .ok (some { result with documents := documents }, { st with termCache := cache2 })

/-- SearchFn.search: the docIds of executeSearch, [] for a null result. -/
def sfnSearch (st : SfnState) (query : String) (options : SearchOptions)
    (idfFn : Nat → ℚ) : Except CodecErr (List String × SfnState) :=
  match sfnExecuteSearch st query options idfFn with
  | .error e => .error e
  | .ok (none, st2) => .ok ([], st2)
  | .ok (some result, st2) => .ok (result.documents.map (fun d => d.docId), st2)

/-! ## InMemorySearchFn search path (src/cache/types.ts) -/

/-- A stored posting entry of the in-memory map. -/
structure PostingInfo where
  frequency : ℚ
  metadata : Option Json := none
deriving Repr, BEq

/-- The in-memory options object (no mode field). -/
structure InMemorySearchOptions where
  fields : Option (List String) := none
  limit : Option Nat := none
  minScore : Option ℚ := none
  fuzzy : Option FuzzyOpt := none
  applyQueryNGrams : Option Bool := none

/-- The in-memory engine state the search path reads: the postings map
keyed by field::term, the vocabulary set and the fuzzy-expansion cache as
insertion-ordered association lists. -/
structure InMemoryState where
  pOpts : PipelineOptions
  fields : List String
  postings : List (String × List (String × PostingInfo))
  documents : List (String × Json) := []
  vocabulary : List String
  fuzzyCache : List (String × List String)
  statsManager : DocumentStatsManager

def getPostingKey (field term : String) : String := field ++ "::" ++ term

/-- getCachedFuzzyExpansion: probe the term:distance cache, on a miss run
fuzzyExpand, store the result and drop the oldest entry once the cache
exceeds 1000 entries. -/
def getCachedFuzzyExpansion (st : InMemoryState) (term : String) (distance : Nat) :
    List String × InMemoryState :=
  let cacheKey := term ++ ":" ++ String.mk (intChars distance)
  match st.fuzzyCache.find? fun p => p.1 = cacheKey with
  | some hit => (hit.2, st)
  | none =>
    let expansion := fuzzyExpand term distance st.vocabulary
    let cache2 := st.fuzzyCache ++ [(cacheKey, expansion)]
    let cache3 := if cache2.length > 1000 then cache2.drop 1 else cache2
    (expansion, { st with fuzzyCache := cache3 })

/-- InMemorySearchFn.pipelineWithoutNGrams: run the configured pipeline
and filter tokens whose metadata has a truthy isNGram flag. -/
def imPipelineWithoutNGrams (pOpts : PipelineOptions) (field text : String) :
    List Token :=
  (pipelineRun pOpts field text none).filter fun token =>
    !((token.metadata.bind fun m => m.isNGram).getD false)

/-- One term insertion of InMemorySearchFn.buildQueryTokens: keyed by
field::term, the first writer wins, the exact term gets boost 1 and every
other (fuzzy-added) term boost 0.8. -/
def imAddToken (tokenMap : List (String × QueryToken)) (field term tokenValue : String) :
    List (String × QueryToken) :=
  let key := getPostingKey field term
  if (tokenMap.find? fun p => p.1 = key).isSome then tokenMap
  else
    tokenMap ++ [(key,
      { field := field, term := term,
        boost := if term = tokenValue then 1 else 8/10 })]

/-- The per-token loop body of InMemorySearchFn.buildQueryTokens: expand
the token through the (state-threaded) fuzzy cache when a distance is
set, then insert every term. -/
def imTokenStep (field : String) (fuzzyDistance : Option Nat)
    (acc : List (String × QueryToken) × InMemoryState) (token : Token) :
    List (String × QueryToken) × InMemoryState :=
  let expanded := match fuzzyDistance with
    | some distance => getCachedFuzzyExpansion acc.2 token.value distance
    | none => ([token.value], acc.2)
  (expanded.1.foldl (fun tokenMap term => imAddToken tokenMap field term token.value)
    acc.1,
   expanded.2)

/-- The per-field loop body of InMemorySearchFn.buildQueryTokens. -/
def imFieldStep (query : String) (fuzzyDistance : Option Nat) (applyNGrams : Bool)
    (acc : List (String × QueryToken) × InMemoryState) (field : String) :
    List (String × QueryToken) × InMemoryState :=
  let tokens :=
    if applyNGrams then pipelineRun acc.2.pOpts field query none
    else imPipelineWithoutNGrams acc.2.pOpts field query
  tokens.foldl (imTokenStep field fuzzyDistance) acc

/-- InMemorySearchFn.buildQueryTokens: pipeline each field, expand each
token through the cached fuzzy expansion when a distance is set (the
expansion replaces the literal token value list), and collect the
first-seen field::term entries. -/
def imBuildQueryTokens (st : InMemoryState) (query : String) (fields : List String)
    (fuzzyDistance : Option Nat) (applyNGrams : Bool) :
    List QueryToken × InMemoryState :=
  let folded := fields.foldl (imFieldStep query fuzzyDistance applyNGrams)
    (([] : List (String × QueryToken)), st)
  (folded.1.map Prod.snd, folded.2)

/-- The chunk construction and scoring of InMemorySearchFn.executeSearch
for a built token list (the local `scored` of the source): each token
looks up its postings map entry, the boost (|| 1) multiplies the stored
frequencies, and the chunks go through the scorer with k1 = 1.2,
b = 0.75, d = 0.5. -/
def imScoreQuery (st2 : InMemoryState) (tokens : List QueryToken)
    (idfFn : Nat → ℚ) : List ScoredDoc :=
  let chunks := tokens.foldl (fun chunks token =>
    match st2.postings.find? fun p => p.1 = getPostingKey token.field token.term with
    | none => chunks
    | some entry =>
      let boostFactor := if token.boost = 0 then 1 else token.boost
      let postingsArray : List TermPosting := entry.2.map fun q =>
        { docId := q.1, termFrequency := q.2.frequency * boostFactor,
          metadata := q.2.metadata }
      let chunk : RetrievedPostingChunk :=
        { field := token.field, term := token.term, postings := postingsArray,
          docFrequency := postingsArray.length, inverseDocumentFrequency := none }
      chunks ++ [chunk]) ([] : List RetrievedPostingChunk)
  let averageDocLength := effAverageDocLength st2.statsManager
  let docLengths := buildDocLengths st2.statsManager averageDocLength chunks
  scorePostings chunks docLengths averageDocLength (12/10) (3/4) (1/2) idfFn

/-- InMemorySearchFn.executeSearch: null on an empty token list, else
score the built tokens, filter by a positive minScore, then slice to
max(1, limit ?? 10). -/
def imExecuteSearch (st : InMemoryState) (query : String)
    (options : InMemorySearchOptions) (idfFn : Nat → ℚ) :
    Option (List ScoredDoc) × InMemoryState :=
  let fields := options.fields.getD st.fields
  let fuzzyDistance := getFuzzyDistance options.fuzzy
  let applyNGrams := options.applyQueryNGrams.getD false
  let built := imBuildQueryTokens st query fields fuzzyDistance applyNGrams
  let tokens := built.1
  let st2 := built.2
  if tokens.length = 0 then (none, st2)
  else
    let scored := imScoreQuery st2 tokens idfFn
    let filtered : List ScoredDoc := match options.minScore with
      | some minScore =>
        if minScore > 0 then scored.filter (fun doc => minScore ≤ doc.score) else scored
      | none => scored
    let limit := max 1 (options.limit.getD 10)
    (some (filtered.take limit), st2)

/-- InMemorySearchFn.search: the docIds of executeSearch, [] for null. -/
def imSearch (st : InMemoryState) (query : String)
    (options : InMemorySearchOptions) (idfFn : Nat → ℚ) :
    List String × InMemoryState :=
  let run := imExecuteSearch st query options idfFn
  match run.1 with
  | none => ([], run.2)
  | some docs => (docs.map fun d => d.docId, run.2)

/-- A detailed search result item: docId, score and the optionally
attached stored document. -/
structure SearchResultItem where
  docId : String
  score : ℚ
  document : Option Json := none
deriving Repr, BEq

/-- SearchFn.searchDetailed: [] for a null result; otherwise the scored
items, with the stored documents attached when includeStored is set. -/
def sfnSearchDetailed (st : SfnState) (query : String) (options : SearchOptions)
    (includeStored : Bool) (idfFn : Nat → ℚ) :
    Except CodecErr (List SearchResultItem × SfnState) :=
  match sfnExecuteSearch st query options idfFn with
  | .error e => .error e
  | .ok (none, st2) => .ok ([], st2)
  | .ok (some result, st2) =>
    let baseItems : List SearchResultItem :=
      result.documents.map fun doc => { docId := doc.docId, score := doc.score }
    if !includeStored then .ok (baseItems, st2)
    else
      .ok (baseItems.map fun item =>
        { item with
          document := (st2.documents.find? fun p => p.1 = item.docId).map Prod.snd },
        st2)

/-- InMemorySearchFn.searchDetailed: [] for a null result; otherwise the
scored items, with the stored documents attached when includeStored is
set. -/
def imSearchDetailed (st : InMemoryState) (query : String)
    (options : InMemorySearchOptions) (includeStored : Bool) (idfFn : Nat → ℚ) :
    List SearchResultItem × InMemoryState :=
  let run := imExecuteSearch st query options idfFn
  match run.1 with
  | none => ([], run.2)
  | some docs =>
    let baseItems : List SearchResultItem :=
      docs.map fun doc => { docId := doc.docId, score := doc.score }
    if !includeStored then (baseItems, run.2)
    else
      (baseItems.map fun item =>
        { item with
          document := (run.2.documents.find? fun p => p.1 = item.docId).map Prod.snd },
       run.2)

/-! ## Claim C9: empty pipeline output -/

/-- A fold fixes its start when every step fixes every accumulator
satisfying an invariant the start satisfies. -/
lemma foldl_id_of_inv {α β : Type} (P : β → Prop) :
    ∀ (l : List α) (f : β → α → β) (b : β), P b →
      (∀ x ∈ l, ∀ acc, P acc → f acc x = acc) → l.foldl f b = b := by
  intro l
  induction l with
  | nil => intro f b hb h; rfl
  | cons x rest ih =>
    intro f b hb h
    rw [List.foldl_cons, h x (List.mem_cons_self x rest) b hb]
    exact ih f b hb fun y hy acc hacc => h y (List.mem_cons_of_mem x hy) acc hacc

/-- A fold preserves an invariant preserved by every step. -/
lemma foldl_pres_inv {α β : Type} (P : β → Prop) :
    ∀ (l : List α) (f : β → α → β) (b : β), P b →
      (∀ x ∈ l, ∀ acc, P acc → P (f acc x)) → P (l.foldl f b) := by
  intro l
  induction l with
  | nil => intro f b hb h; exact hb
  | cons x rest ih =>
    intro f b hb h
    rw [List.foldl_cons]
    exact ih f (f b x) (h x (List.mem_cons_self x rest) b hb)
      fun y hy acc hacc => h y (List.mem_cons_of_mem x hy) acc hacc

/-- When every searched field pipelines the query to no tokens, the
canonical engine builds no query tokens. -/
lemma sfnBuildQueryTokens_empty (pOpts : PipelineOptions) (query : String)
    (fields : List String) (applyNGrams : Bool)
    (h : ∀ field ∈ fields,
      (if applyNGrams then pipelineRun pOpts field query none
       else sfnPipelineWithoutNGrams field query) = []) :
    sfnBuildQueryTokens pOpts query fields applyNGrams = [] := by
  unfold sfnBuildQueryTokens
  have hstep : ∀ x ∈ fields, ∀ (acc : List (String × List QueryToken)), True →
      sfnFieldStep pOpts query applyNGrams acc x = acc := by
    intro x hx acc _
    simp [sfnFieldStep, h x hx]
  rw [foldl_id_of_inv (fun _ => True) fields (sfnFieldStep pOpts query applyNGrams)
    [] trivial hstep]
  rfl

/-- When every searched field pipelines the query to no tokens, the
in-memory engine builds no query tokens and leaves the state (including
the fuzzy cache) untouched. -/
lemma imBuildQueryTokens_empty (st : InMemoryState) (query : String)
    (fields : List String) (fuzzyDistance : Option Nat) (applyNGrams : Bool)
    (h : ∀ field ∈ fields,
      (if applyNGrams then pipelineRun st.pOpts field query none
       else imPipelineWithoutNGrams st.pOpts field query) = []) :
    imBuildQueryTokens st query fields fuzzyDistance applyNGrams = ([], st) := by
  unfold imBuildQueryTokens
  have hstep : ∀ x ∈ fields, ∀ (acc : List (String × QueryToken) × InMemoryState),
      acc.2 = st → imFieldStep query fuzzyDistance applyNGrams acc x = acc := by
    intro x hx acc hacc
    simp [imFieldStep, hacc, h x hx]
  rw [foldl_id_of_inv (fun acc => acc.2 = st) fields
    (imFieldStep query fuzzyDistance applyNGrams) ([], st) rfl hstep]
  rfl

/-- C9: a query whose pipeline output is empty over every searched field
makes executeSearch return null and search and searchDetailed return the
empty list, on both engines, leaving the engine state (term cache, fuzzy
cache, stats) untouched and reading nothing from the stored chunks. -/
theorem C9_empty_pipeline_output (stS : SfnState) (stM : InMemoryState)
    (query : String) (optsS : SearchOptions) (optsM : InMemorySearchOptions)
    (includeStored : Bool) (idfFn : Nat → ℚ) :
    ((∀ field ∈ optsS.fields.getD stS.fields,
        (if optsS.applyQueryNGrams.getD false then pipelineRun stS.pOpts field query none
         else sfnPipelineWithoutNGrams field query) = []) →
      sfnExecuteSearch stS query optsS idfFn = .ok (none, stS) ∧
      sfnSearch stS query optsS idfFn = .ok ([], stS) ∧
      sfnSearchDetailed stS query optsS includeStored idfFn = .ok ([], stS)) ∧
    ((∀ field ∈ optsM.fields.getD stM.fields,
        (if optsM.applyQueryNGrams.getD false then pipelineRun stM.pOpts field query none
         else imPipelineWithoutNGrams stM.pOpts field query) = []) →
      imExecuteSearch stM query optsM idfFn = (none, stM) ∧
      imSearch stM query optsM idfFn = ([], stM) ∧
      imSearchDetailed stM query optsM includeStored idfFn = ([], stM)) := by
  constructor
  · intro h
    have htok := sfnBuildQueryTokens_empty stS.pOpts query
      (optsS.fields.getD stS.fields) (optsS.applyQueryNGrams.getD false) h
    have hexec : sfnExecuteSearch stS query optsS idfFn = .ok (none, stS) := by
      simp only [sfnExecuteSearch]
      rw [htok]
      simp
    exact ⟨hexec, by simp [sfnSearch, hexec], by simp [sfnSearchDetailed, hexec]⟩
  · intro h
    have htok := imBuildQueryTokens_empty stM query (optsM.fields.getD stM.fields)
      (getFuzzyDistance optsM.fuzzy) (optsM.applyQueryNGrams.getD false) h
    have hexec : imExecuteSearch stM query optsM idfFn = (none, stM) := by
      simp only [imExecuteSearch]
      rw [htok]
      simp
    exact ⟨hexec, by simp [imSearch, hexec], by simp [imSearchDetailed, hexec]⟩

/-- A minimal open engine state for the empty-query witness. -/
def c9SfnState : SfnState :=
  { pOpts := {}, fields := ["title"], storage := [], stats := {},
    termCache := lruInit RetrievedPostingChunk 100 }

/-- A minimal in-memory state for the empty-query witness. -/
def c9ImState : InMemoryState :=
  { pOpts := {}, fields := ["title"], postings := [], vocabulary := [],
    fuzzyCache := [], statsManager := {} }

/-- Witness for C9: the empty query pipelines to no tokens and both
engines return the empty result with their state unchanged. -/
theorem C9_witness :
    (∀ field ∈ (({} : SearchOptions)).fields.getD c9SfnState.fields,
      (if (({} : SearchOptions)).applyQueryNGrams.getD false then
        pipelineRun c9SfnState.pOpts field "" none
       else sfnPipelineWithoutNGrams field "") = []) ∧
    sfnSearch c9SfnState "" {} (fun _ => 1) = .ok ([], c9SfnState) ∧
    imSearch c9ImState "" {} (fun _ => 1) = ([], c9ImState) := by
  have h1 : ∀ field ∈ (({} : SearchOptions)).fields.getD c9SfnState.fields,
      (if (({} : SearchOptions)).applyQueryNGrams.getD false then
        pipelineRun c9SfnState.pOpts field "" none
       else sfnPipelineWithoutNGrams field "") = [] := by decide
  have h2 : ∀ field ∈ (({} : InMemorySearchOptions)).fields.getD c9ImState.fields,
      (if (({} : InMemorySearchOptions)).applyQueryNGrams.getD false then
        pipelineRun c9ImState.pOpts field "" none
       else imPipelineWithoutNGrams c9ImState.pOpts field "") = [] := by decide
  exact ⟨h1,
    ((C9_empty_pipeline_output c9SfnState c9ImState "" {} {} false
      (fun _ => 1)).1 h1).2.1,
    ((C9_empty_pipeline_output c9SfnState c9ImState "" {} {} false
      (fun _ => 1)).2 h2).2.1⟩

/-! ## Claim C4: query-time n-gram suppression -/

/-- No token of the built-in pipeline ever carries an isNGram metadata
flag (no stage sets one). -/
def noNGramFlag (t : Token) : Prop := (t.metadata.bind fun m => m.isNGram) = none

lemma tokenizeStage_no_flag (tokens : List Token) (ctx : PipelineContext) :
    ∀ t ∈ tokenizeStage.execute tokens ctx, noNGramFlag t := by
  intro t ht
  simp only [tokenizeStage] at ht
  rcases tokens with _ | ⟨seed, _ | ⟨b, rest⟩⟩
  · simp at ht
  · simp only [List.mem_map] at ht
    obtain ⟨p, _, rfl⟩ := ht
    rfl
  · simp at ht

lemma map_value_no_flag (f : Token → String) (tokens : List Token)
    (h : ∀ t ∈ tokens, noNGramFlag t) :
    ∀ t ∈ tokens.map (fun x => { x with value := f x }), noNGramFlag t := by
  intro t ht
  simp only [List.mem_map] at ht
  obtain ⟨x, hx, rfl⟩ := ht
  exact h x hx

lemma generateNGrams_no_flag (tokens : List Token) (minGram maxGram : Nat)
    (h : ∀ t ∈ tokens, noNGramFlag t) :
    ∀ t ∈ generateNGrams tokens minGram maxGram, noNGramFlag t := by
  intro t ht
  simp only [generateNGrams, List.mem_flatMap] at ht
  obtain ⟨x, hx, ht⟩ := ht
  by_cases hlen : x.value.length < minGram
  · rw [if_pos hlen] at ht
    simp only [List.mem_singleton] at ht
    subst ht
    exact h _ hx
  · rw [if_neg hlen] at ht
    simp only [List.mem_map] at ht
    obtain ⟨i, hi, rfl⟩ := ht
    have hsrc := h x hx
    unfold noNGramFlag at hsrc ⊢
    cases hmeta : x.metadata with
    | none => simp [hmeta]
    | some m =>
      rw [hmeta] at hsrc
      simp at hsrc
      simp [hmeta, hsrc]

lemma stage_preserves_no_flag (opts : PipelineOptions) (hc : opts.customStages = []) :
    ∀ s ∈ pipelineStages opts, ∀ tokens ctx,
      (∀ t ∈ tokens, noNGramFlag t) → ∀ t ∈ s.execute tokens ctx, noNGramFlag t := by
  intro s hs tokens ctx h
  have hnorm : ∀ t ∈ normalizeStage.execute tokens ctx, noNGramFlag t := by
    simp only [normalizeStage]
    exact map_value_no_flag _ tokens h
  have hstop : ∀ ws, ∀ t ∈ (createStopWordStage ws).execute tokens ctx, noNGramFlag t := by
    intro ws t ht
    simp only [createStopWordStage] at ht
    split at ht
    · exact h t ht
    · exact h t (List.mem_of_mem_filter ht)
  have hstem : ∀ f, ∀ t ∈ (createStemStage f).execute tokens ctx, noNGramFlag t := by
    intro f
    simp only [createStemStage]
    exact map_value_no_flag _ tokens h
  have hngram : ∀ o, ∀ t ∈ (createEdgeNGramStage o).execute tokens ctx, noNGramFlag t := by
    intro o t ht
    simp only [createEdgeNGramStage] at ht
    cases hfc : o.fieldConfig with
    | none =>
      simp only [hfc] at ht
      exact generateNGrams_no_flag tokens o.minGram o.maxGram h t ht
    | some fieldConfig =>
      simp only [hfc] at ht
      cases hfind : (fieldConfig.find? fun p => p.1 = ctx.field).map Prod.snd with
      | none =>
        simp only [hfind] at ht
        exact h t ht
      | some config =>
        simp only [hfind] at ht
        split at ht
        · exact h t ht
        · exact generateNGrams_no_flag tokens _ _ h t ht
  simp only [pipelineStages, hc, List.append_nil, buildDefaultStages] at hs
  split at hs <;> split at hs <;>
    simp only [List.mem_append, List.mem_cons, List.mem_singleton,
      List.not_mem_nil, or_false, or_assoc] at hs <;>
    rcases hs with rfl | rfl | rfl | rfl | rfl <;>
    first
      | exact tokenizeStage_no_flag tokens ctx
      | exact hnorm
      | exact hstop _
      | exact hstem _
      | exact hngram _

lemma runStages_no_flag :
    ∀ (stages : List PipelineStage),
      (∀ s ∈ stages, ∀ tokens ctx,
        (∀ t ∈ tokens, noNGramFlag t) → ∀ t ∈ s.execute tokens ctx, noNGramFlag t) →
      ∀ tokens ctx, (∀ t ∈ tokens, noNGramFlag t) →
        ∀ t ∈ runStages stages tokens ctx, noNGramFlag t := by
  intro stages
  induction stages with
  | nil => intro _ tokens ctx h; exact h
  | cons s rest ih =>
    intro hstages tokens ctx h
    rw [runStages]
    have h2 := hstages s (List.mem_cons_self s rest) tokens ctx h
    split
    · intro t ht; exact h2 t ht
    · exact ih (fun y hy => hstages y (List.mem_cons_of_mem s hy)) _ ctx h2

/-- Every token produced by a custom-stage-free pipeline run lacks the
isNGram flag. -/
lemma pipelineRun_no_flag (opts : PipelineOptions) (hc : opts.customStages = [])
    (field text : String) (docId : Option String) :
    ∀ t ∈ pipelineRun opts field text docId, noNGramFlag t := by
  unfold pipelineRun
  refine runStages_no_flag (pipelineStages opts) (stage_preserves_no_flag opts hc) _ _ ?_
  intro t ht
  simp only [List.mem_singleton] at ht
  subst ht
  rfl

/-- The in-memory "pipeline without n-grams" is the identity on the
configured pipeline output: its filter looks for an isNGram flag that no
stage ever sets (the edge n-gram stage sets isPrefix instead). -/
lemma imPipelineWithoutNGrams_eq (opts : PipelineOptions)
    (hc : opts.customStages = []) (field text : String) :
    imPipelineWithoutNGrams opts field text = pipelineRun opts field text none := by
  unfold imPipelineWithoutNGrams
  refine List.filter_eq_self.mpr ?_
  intro a ha
  have hflag := pipelineRun_no_flag opts hc field text none a ha
  unfold noNGramFlag at hflag
  rw [hflag]
  rfl

/-- The n-gram-enabled options of spec scenario B (minGram 2, maxGram 15,
stop words disabled). -/
def c4NGramOpts : PipelineOptions :=
  { enableEdgeNGrams := true, stopWords := some [] }

/-- An in-memory engine configured with edge n-grams for the C4 failing
input. -/
def c4ImState : InMemoryState :=
  { pOpts := c4NGramOpts, fields := ["title"], postings := [], vocabulary := [],
    fuzzyCache := [], statsManager := {} }

/-- A pipeline configured with stop words disabled (and no n-grams). -/
def c4NoStopOpts : PipelineOptions := { stopWords := some [] }

/-- C4: the claim fails on both engines.  In-memory, pipelineWithoutNGrams
filters on an isNGram flag no stage sets, so it is the identity and the
prefix n-grams stay among the query tokens: for "anthropic" the query
tokens are the eight prefixes, "an" included.  In the canonical engine,
pipelineWithoutNGrams builds a fresh default pipeline, so the configured
stop-word setting is dropped: with stop words disabled the configured
pipeline keeps "the", yet the query pipeline erases it. -/
theorem C4_query_ngram_bug :
    (∀ (opts : PipelineOptions), opts.customStages = [] →
      ∀ (field text : String),
        imPipelineWithoutNGrams opts field text = pipelineRun opts field text none) ∧
    ((imPipelineWithoutNGrams c4NGramOpts "title" "anthropic").map Token.value
      = ["an", "ant", "anth", "anthr", "anthro", "anthrop", "anthropi",
         "anthropic"]) ∧
    ((imBuildQueryTokens c4ImState "anthropic" ["title"] none false).1.map
        QueryToken.term
      = ["an", "ant", "anth", "anthr", "anthro", "anthrop", "anthropi",
         "anthropic"]) ∧
    sfnPipelineWithoutNGrams "title" "the" = [] ∧
    (pipelineRun c4NoStopOpts "title" "the" none).map Token.value = ["the"] := by
  refine ⟨fun opts hc field text => imPipelineWithoutNGrams_eq opts hc field text,
    by decide, by decide, by decide, by decide⟩

/-- Witness for C4: the identity property applied at the concrete n-gram
configuration. -/
theorem C4_witness :
    c4NGramOpts.customStages = [] ∧
    imPipelineWithoutNGrams c4NGramOpts "title" "anthropic"
      = pipelineRun c4NGramOpts "title" "anthropic" none :=
  ⟨rfl, (C4_query_ngram_bug).1 c4NGramOpts rfl "title" "anthropic"⟩

/-! ## Claim C1: fuzzy expansion -/

lemma sfnAddToken_boost (m : List (String × List QueryToken)) (field value : String)
    (h : ∀ p ∈ m, ∀ t ∈ p.2, t.boost = 1) :
    ∀ p ∈ sfnAddToken m field value, ∀ t ∈ p.2, t.boost = 1 := by
  intro p hp t ht
  unfold sfnAddToken at hp
  cases hf : m.find? fun q => q.1 = field with
  | none =>
    simp only [hf] at hp
    rcases List.mem_append.mp hp with hin | hnew
    · exact h p hin t ht
    · simp only [List.mem_singleton] at hnew
      subst hnew
      simp only [List.mem_singleton] at ht
      subst ht
      rfl
  | some q0 =>
    simp only [hf, List.mem_map] at hp
    obtain ⟨q, hq, rfl⟩ := hp
    revert ht
    split
    · split
      · intro ht; exact h q hq t ht
      · intro ht
        rcases List.mem_append.mp ht with h1 | h2
        · exact h q hq t h1
        · simp only [List.mem_singleton] at h2
          subst h2
          rfl
    · intro ht; exact h q hq t ht

/-- Every query token the canonical SearchFn builds has boost 1: that
path performs no fuzzy expansion at all. -/
lemma sfnBuildQueryTokens_boost (pOpts : PipelineOptions) (query : String)
    (fields : List String) (applyNGrams : Bool) :
    ∀ t ∈ sfnBuildQueryTokens pOpts query fields applyNGrams, t.boost = 1 := by
  intro t ht
  unfold sfnBuildQueryTokens at ht
  simp only [List.mem_flatMap] at ht
  obtain ⟨p, hp, ht⟩ := ht
  have hinv := foldl_pres_inv
    (fun m : List (String × List QueryToken) => ∀ p ∈ m, ∀ t ∈ p.2, t.boost = 1)
    fields (sfnFieldStep pOpts query applyNGrams) [] (by simp) ?_
  · exact hinv p hp t ht
  · intro x _ acc hacc
    unfold sfnFieldStep
    exact foldl_pres_inv _ _ _ acc hacc
      fun token _ m hm => sfnAddToken_boost m x token.value hm

lemma imAddToken_boost (m : List (String × QueryToken)) (field term tokenValue : String)
    (h : ∀ p ∈ m, p.2.boost = 1 ∨ p.2.boost = 8/10) :
    ∀ p ∈ imAddToken m field term tokenValue, p.2.boost = 1 ∨ p.2.boost = 8/10 := by
  intro p hp
  simp only [imAddToken] at hp
  split at hp
  · exact h p hp
  · rcases List.mem_append.mp hp with h1 | h2
    · exact h p h1
    · simp only [List.mem_singleton] at h2
      subst h2
      by_cases hterm : term = tokenValue
      · left; simp [hterm]
      · right; simp [hterm]

/-- Every query token the in-memory engine builds has boost 1 (the term
equals the pipeline token value) or 0.8 (a differing fuzzy-added
vocabulary term). -/
lemma imBuildQueryTokens_boost (st : InMemoryState) (query : String)
    (fields : List String) (fuzzyDistance : Option Nat) (applyNGrams : Bool) :
    ∀ t ∈ (imBuildQueryTokens st query fields fuzzyDistance applyNGrams).1,
      t.boost = 1 ∨ t.boost = 8/10 := by
  intro t ht
  unfold imBuildQueryTokens at ht
  simp only [List.mem_map] at ht
  obtain ⟨p, hp, rfl⟩ := ht
  have hinv := foldl_pres_inv
    (fun acc : List (String × QueryToken) × InMemoryState =>
      ∀ q ∈ acc.1, q.2.boost = 1 ∨ q.2.boost = 8/10)
    fields (imFieldStep query fuzzyDistance applyNGrams) ([], st) (by simp) ?_
  · exact hinv p hp
  · intro x _ acc hacc
    unfold imFieldStep
    refine foldl_pres_inv
      (fun acc : List (String × QueryToken) × InMemoryState =>
        ∀ q ∈ acc.1, q.2.boost = 1 ∨ q.2.boost = 8/10)
      _ (imTokenStep x fuzzyDistance) acc hacc ?_
    intro tok _ acc2 hacc2
    unfold imTokenStep
    simp only
    exact foldl_pres_inv
      (fun mm : List (String × QueryToken) =>
        ∀ q ∈ mm, q.2.boost = 1 ∨ q.2.boost = 8/10)
      _ _ acc2.1 hacc2
      fun term _ mm hmm => imAddToken_boost mm x term tok.value hmm

/-- The C1 in-memory state: one document under "hello", vocabulary
containing only "hello". -/
def c1ImState : InMemoryState :=
  { pOpts := {}, fields := ["title"],
    postings := [("title::hello", [("doc-1", { frequency := 2 })])],
    vocabulary := ["hello"], fuzzyCache := [], statsManager := {} }

/-- The same state with the exact query term also in the vocabulary. -/
def c1ImStateBoth : InMemoryState := { c1ImState with vocabulary := ["helo", "hello"] }

/-- C1 (amended): the canonical SearchFn performs no fuzzy expansion (all
its query tokens carry boost 1 and the fuzzy option does not influence
executeSearch); on the in-memory path the tokens carry boost 1 or 0.8,
the expansion replaces the literal term list with the vocabulary matches
(the exact term keeps boost 1 exactly when the vocabulary contains it),
and the boost multiplies the posting term frequency (tf 2 with boost 0.8
scores as tf 1.6). -/
theorem C1_fuzzy_expansion :
    (∀ (pOpts : PipelineOptions) (query : String) (fields : List String)
       (applyNGrams : Bool) (t : QueryToken),
       t ∈ sfnBuildQueryTokens pOpts query fields applyNGrams → t.boost = 1) ∧
    (∀ (st : SfnState) (query : String) (opts : SearchOptions)
       (f : Option FuzzyOpt) (idfFn : Nat → ℚ),
       sfnExecuteSearch st query { opts with fuzzy := f } idfFn
         = sfnExecuteSearch st query opts idfFn) ∧
    (∀ (st : InMemoryState) (query : String) (fields : List String)
       (fuzzyDistance : Option Nat) (applyNGrams : Bool) (t : QueryToken),
       t ∈ (imBuildQueryTokens st query fields fuzzyDistance applyNGrams).1 →
       t.boost = 1 ∨ t.boost = 8/10) ∧
    ((imBuildQueryTokens c1ImStateBoth "helo" ["title"] (some 2) false).1
      = [{ field := "title", term := "helo", boost := 1 },
         { field := "title", term := "hello", boost := 8/10 }]) ∧
    ((imExecuteSearch c1ImState "helo" { fuzzy := some (.num 2) } (fun _ => 1)).1
      = some [{ docId := "doc-1", score := 123/70 }]) := by
  refine ⟨fun pOpts query fields ang t ht =>
      sfnBuildQueryTokens_boost pOpts query fields ang t ht,
    fun st query opts f idfFn => rfl,
    fun st query fields fd ang t ht =>
      imBuildQueryTokens_boost st query fields fd ang t ht,
    by with_unfolding_all decide, by with_unfolding_all decide⟩

/-- Counterexample for C1: fuzzy distance 2, query term "helo" not in the
vocabulary: the expansion replaces the exact term, the only query token
is "hello" with boost 0.8 and no token keeps boost 1. -/
theorem C1_counterexample :
    (imBuildQueryTokens c1ImState "helo" ["title"] (some 2) false).1
      = [{ field := "title", term := "hello", boost := 8/10 }] ∧
    ∀ t ∈ (imBuildQueryTokens c1ImState "helo" ["title"] (some 2) false).1,
      ¬ t.boost = 1 := by
  exact ⟨by with_unfolding_all decide, by with_unfolding_all decide⟩

/-- Witness for C1 at concrete inputs. -/
theorem C1_witness :
    ({ field := "t", term := "hello", boost := 1 } : QueryToken)
        ∈ sfnBuildQueryTokens {} "hello" ["t"] false ∧
    ({ field := "t", term := "hello", boost := 1 } : QueryToken).boost = 1 ∧
    ({ field := "title", term := "hello", boost := 8/10 } : QueryToken)
        ∈ (imBuildQueryTokens c1ImState "helo" ["title"] (some 2) false).1 ∧
    (({ field := "title", term := "hello", boost := 8/10 } : QueryToken).boost = 1
      ∨ ({ field := "title", term := "hello", boost := 8/10 } : QueryToken).boost
          = 8/10) :=
  ⟨by with_unfolding_all decide,
   (C1_fuzzy_expansion).1 {} "hello" ["t"] false _ (by with_unfolding_all decide),
   by with_unfolding_all decide,
   (C1_fuzzy_expansion).2.2.1 c1ImState "helo" ["title"] (some 2) false _ (by with_unfolding_all decide)⟩

/-! ## Claim C3: posting metadata through persistence -/

/-- The posting object literal persistPostings JSON-encodes: docId,
termFrequency and the metadata record, in insertion order; an absent
metadata (undefined) is omitted by JSON.stringify. -/
def postingToJson (docId : String) (termFrequency : Int) (metadata : Option Json) :
    Json :=
  .obj ([("docId", .str docId), ("termFrequency", .num termFrequency)]
    ++ match metadata with
       | some m => [("metadata", m)]
       | none => [])

/-- The serialized posting string persistPostings hands to the codec. -/
def persistPosting (docId : String) (termFrequency : Int) (metadata : Option Json) :
    String :=
  jsStringify (postingToJson docId termFrequency metadata)

/-- parsePosting on a persisted posting: the docId and termFrequency come
back, the metadata does not (parsePosting never reads it). -/
lemma parsePosting_persistPosting (docId : String) (tf : Int) (metadata : Option Json)
    (htf : 1 ≤ tf) :
    parsePosting (Json.str (persistPosting docId tf metadata))
      = { docId := docId, termFrequency := (tf : ℚ), metadata := none } := by
  have hpos : (0 : ℚ) < (tf : ℚ) := by
    have : (0 : Int) < tf := by omega
    exact_mod_cast this
  unfold persistPosting
  simp only [parsePosting]
  rw [jsParse_jsStringify]
  simp only [postingToJson, List.cons_append, List.nil_append]
  rw [List.find?_cons_of_pos _ (by simp)]
  simp only
  rw [List.find?_cons_of_neg _ (by simp), List.find?_cons_of_pos _ (by simp)]
  simp only [Option.map_some', normaliseTf, jsNumber]
  rw [if_pos hpos]

/-- C3 (amended): metadata does NOT round-trip through persistence.
persistPostings JSON-encodes each posting and the codec json path brings
the strings back intact, but parsePosting reconstructs only docId and
termFrequency; the reloaded posting carries no metadata, so a posting
persisted with isPrefix true loses the 0.7 prefix penalty: its fresh
in-memory contribution is 0.7 times its reloaded contribution. -/
theorem C3_metadata_not_roundtripped :
    (∀ (docId : String) (tf : Int) (metadata : Option Json), 1 ≤ tf →
      parsePosting (Json.str (persistPosting docId tf metadata))
        = { docId := docId, termFrequency := (tf : ℚ), metadata := none }) ∧
    (∀ (entries : List (String × Int × Option Json))
       (e0 : String × Int × Option Json), e0 ∈ entries →
       (∀ e ∈ entries, 1 ≤ e.2.1) →
      encodePostings (entries.map fun e => PV.str (persistPosting e.1 e.2.1 e.2.2))
          = .ok (strToBytes (jsStringify (Json.arr
              (entries.map fun e => Json.str (persistPosting e.1 e.2.1 e.2.2)))),
            .json) ∧
      decodePostings (strToBytes (jsStringify (Json.arr
            (entries.map fun e => Json.str (persistPosting e.1 e.2.1 e.2.2))))) .json
          = .ok (entries.map fun e => Json.str (persistPosting e.1 e.2.1 e.2.2)) ∧
      (entries.map fun e => Json.str (persistPosting e.1 e.2.1 e.2.2)).map parsePosting
          = entries.map fun e =>
              ({ docId := e.1, termFrequency := (e.2.1 : ℚ), metadata := none }
                : TermPosting)) ∧
    (∀ (idf k1 b d avg dl : ℚ) (docId : String) (tf : Int) (md : Json), 1 ≤ tf →
      metaIsPrefixTrue (some md) = true →
      postingContribution idf k1 b d avg dl
          { docId := docId, termFrequency := (tf : ℚ), metadata := some md }
        = PREFIX_MATCH_PENALTY *
          postingContribution idf k1 b d avg dl
            (parsePosting (Json.str (persistPosting docId tf (some md))))) := by
  refine ⟨fun docId tf metadata htf =>
      parsePosting_persistPosting docId tf metadata htf, ?_, ?_⟩
  · intro entries e0 hmem htf
    have hs : PV.str (persistPosting e0.1 e0.2.1 e0.2.2)
        ∈ entries.map fun e => PV.str (persistPosting e.1 e.2.1 e.2.2) :=
      List.mem_map_of_mem _ hmem
    obtain ⟨henc, hdec⟩ := encodePostings_json_roundtrip _ hs
    have hmap : (entries.map fun e => PV.str (persistPosting e.1 e.2.1 e.2.2)).map
          pvToJson
        = entries.map fun e => Json.str (persistPosting e.1 e.2.1 e.2.2) := by
      rw [List.map_map]
      rfl
    rw [hmap] at henc hdec
    refine ⟨henc, hdec, ?_⟩
    rw [List.map_map]
    refine List.map_congr_left ?_
    intro e he
    exact parsePosting_persistPosting e.1 e.2.1 e.2.2 (htf e he)
  · intro idf k1 b d avg dl docId tf md htf hmd
    rw [parsePosting_persistPosting docId tf (some md) htf]
    simp only [postingContribution, hmd]
    have hnone : metaIsPrefixTrue none = false := rfl
    simp only [hnone]
    simp only [if_true, Bool.false_eq_true, if_false]
    ring

/-- Counterexample for C3: a posting persisted with isPrefix true comes
back with no metadata at all. -/
theorem C3_counterexample :
    (parsePosting (Json.str (persistPosting "doc-1" 2
        (some (Json.obj [("isPrefix", Json.bool true)]))))).metadata = none ∧
    metaIsPrefixTrue (some (Json.obj [("isPrefix", Json.bool true)])) = true := by
  exact ⟨by with_unfolding_all rfl, rfl⟩

/-- Witness for C3 at a concrete persisted posting. -/
theorem C3_witness :
    (1 : Int) ≤ 2 ∧
    parsePosting (Json.str (persistPosting "doc-1" 2
        (some (Json.obj [("isPrefix", Json.bool true)]))))
      = { docId := "doc-1", termFrequency := ((2 : Int) : ℚ), metadata := none } :=
  ⟨by decide, (C3_metadata_not_roundtripped).1 "doc-1" 2
    (some (Json.obj [("isPrefix", Json.bool true)])) (by decide)⟩

/-! ## Claim C2: minScore before truncation -/

instance : IsTotal ScoredDoc (fun a b => b.score ≤ a.score) :=
  ⟨fun a b => le_total b.score a.score⟩

instance : IsTrans ScoredDoc (fun a b => b.score ≤ a.score) :=
  ⟨fun _ _ _ h1 h2 => le_trans h2 h1⟩

/-- The scorer output is sorted descending by score. -/
lemma scorePostings_sorted (chunks : List RetrievedPostingChunk)
    (docLengths : List (String × ℚ)) (avg k1 b d : ℚ) (idfFn : Nat → ℚ) :
    (scorePostings chunks docLengths avg k1 b d idfFn).Sorted
      (fun a b => b.score ≤ a.score) := by
  unfold scorePostings
  exact List.sorted_insertionSort _ _

/-- On a descending list, the minScore filter keeps exactly a prefix. -/
lemma filter_minScore_eq_takeWhile (m : ℚ) :
    ∀ (l : List ScoredDoc), l.Sorted (fun a b => b.score ≤ a.score) →
      l.filter (fun d => m ≤ d.score) = l.takeWhile (fun d => m ≤ d.score) := by
  intro l
  induction l with
  | nil => intro _; rfl
  | cons a rest ih =>
    intro hs
    rw [List.sorted_cons] at hs
    obtain ⟨ha, hrest⟩ := hs
    by_cases hm : m ≤ a.score
    · rw [List.filter_cons_of_pos (by simpa using hm),
        List.takeWhile_cons_of_pos (by simpa using hm), ih hrest]
    · rw [List.filter_cons_of_neg (by simpa using hm),
        List.takeWhile_cons_of_neg (by simpa using hm)]
      refine List.filter_eq_nil_iff.mpr ?_
      intro x hx
      have hxa : x.score ≤ a.score := ha x hx
      simp only [decide_eq_true_eq]
      intro h2
      exact hm (le_trans h2 hxa)

/-- takeWhile commutes with take. -/
lemma takeWhile_take_comm {α : Type} (p : α → Bool) :
    ∀ (l : List α) (k : Nat), (l.take k).takeWhile p = (l.takeWhile p).take k := by
  intro l
  induction l with
  | nil => intro k; simp
  | cons a rest ih =>
    intro k
    cases k with
    | zero => simp
    | succ k2 =>
      rw [List.take_succ_cons]
      by_cases hp : p a
      · rw [List.takeWhile_cons_of_pos hp, List.takeWhile_cons_of_pos hp,
          List.take_succ_cons, ih]
      · rw [List.takeWhile_cons_of_neg (by simpa using hp),
          List.takeWhile_cons_of_neg (by simpa using hp)]
        simp

/-- On a descending list, filtering after truncation equals truncating
the filtered list. -/
lemma take_filter_comm (m : ℚ) (l : List ScoredDoc)
    (h : l.Sorted (fun a b => b.score ≤ a.score)) (k : Nat) :
    (l.take k).filter (fun d => m ≤ d.score)
      = (l.filter (fun d => m ≤ d.score)).take k := by
  have hsub : (l.take k).Sorted (fun a b : ScoredDoc => b.score ≤ a.score) :=
    List.Pairwise.sublist (List.take_sublist k l) h
  rw [filter_minScore_eq_takeWhile m (l.take k) hsub, takeWhile_take_comm,
    ← filter_minScore_eq_takeWhile m l h]

/-- The full scored list of QueryEngine.execute before the limit slice
(the same fetch fold and scorer as engineExecute). -/
def engineScoredAll (storage : List StoredPostingChunk)
    (stats : DocumentStatsManager) (termCache : LruCache RetrievedPostingChunk)
    (tokens : List QueryToken) (idfFn : Nat → ℚ) :
    Except CodecErr (List ScoredDoc) :=
  match tokens.foldlM (engineFetchToken storage) ([], termCache) with
  | .error e => .error e
  | .ok pr =>
    let avg := effAverageDocLength stats
    .ok (scorePostings pr.1 (buildDocLengths stats avg pr.1) avg (12/10) (3/4)
      (1/2) idfFn)

/-- engineExecute returns the sorted full scored list truncated to
limit ?? 10. -/
lemma engineExecute_documents (storage : List StoredPostingChunk)
    (stats : DocumentStatsManager) (cache : LruCache RetrievedPostingChunk)
    (tokens : List QueryToken) (limit : Option Nat) (idfFn : Nat → ℚ)
    (result : QueryResult) (cache2 : LruCache RetrievedPostingChunk)
    (h : engineExecute storage stats cache tokens limit idfFn = .ok (result, cache2)) :
    ∀ scoredAll, engineScoredAll storage stats cache tokens idfFn = .ok scoredAll →
      scoredAll.Sorted (fun a b => b.score ≤ a.score) ∧
      result.documents = scoredAll.take (limit.getD 10) := by
  intro scoredAll hall
  unfold engineExecute at h
  unfold engineScoredAll at hall
  cases hf : tokens.foldlM (engineFetchToken storage) ([], cache) with
  | error e =>
    rw [hf] at h
    simp at h
  | ok pr =>
    rw [hf] at h hall
    simp only [Except.ok.injEq] at hall
    simp only [Except.ok.injEq, Prod.mk.injEq] at h
    obtain ⟨h1, h2⟩ := h
    subst h1
    rw [← hall]
    exact ⟨scorePostings_sorted _ _ _ _ _ _ _, rfl⟩

/-- C2: with a positive minScore, both engines return the first
limit entries of the score-sorted list from which the sub-threshold
documents have been removed.  The in-memory engine filters before its
slice directly; the canonical engine filters after the engine truncation,
which on the sorted list coincides with truncating the filtered list. -/
theorem C2_minScore_before_truncation :
    (∀ (st : SfnState) (query : String) (opts : SearchOptions) (idfFn : Nat → ℚ)
       (m : ℚ), opts.minScore = some m → 0 < m →
      ∀ (result : QueryResult) (st2 : SfnState),
        sfnExecuteSearch st query opts idfFn = .ok (some result, st2) →
        ∀ scoredAll,
          engineScoredAll st.storage st.stats st.termCache
              (sfnBuildQueryTokens st.pOpts query (opts.fields.getD st.fields)
                (opts.applyQueryNGrams.getD false)) idfFn = .ok scoredAll →
          result.documents
            = (scoredAll.filter fun doc => m ≤ doc.score).take (opts.limit.getD 10)) ∧
    (∀ (st : InMemoryState) (query : String) (opts : InMemorySearchOptions)
       (idfFn : Nat → ℚ) (m : ℚ), opts.minScore = some m → 0 < m →
      ∀ (docs : List ScoredDoc) (st2 : InMemoryState),
        imExecuteSearch st query opts idfFn = (some docs, st2) →
        docs = ((imScoreQuery
            (imBuildQueryTokens st query (opts.fields.getD st.fields)
              (getFuzzyDistance opts.fuzzy) (opts.applyQueryNGrams.getD false)).2
            (imBuildQueryTokens st query (opts.fields.getD st.fields)
              (getFuzzyDistance opts.fuzzy) (opts.applyQueryNGrams.getD false)).1
            idfFn).filter fun doc => m ≤ doc.score).take
          (max 1 (opts.limit.getD 10))) := by
  constructor
  · intro st query opts idfFn m hm hm0 result st2 hrun scoredAll hall
    unfold sfnExecuteSearch at hrun
    simp only [hm, hm0, if_true] at hrun
    split at hrun
    · simp at hrun
    · split at hrun
      · simp at hrun
      · rename_i eres cache2 heq
        simp only [Except.ok.injEq, Prod.mk.injEq, Option.some.injEq] at hrun
        obtain ⟨hres, hst⟩ := hrun
        obtain ⟨hsorted, hdocs⟩ :=
          engineExecute_documents _ _ _ _ _ _ _ _ heq scoredAll hall
        subst hres
        simp only
        rw [hdocs]
        exact take_filter_comm m scoredAll hsorted (opts.limit.getD 10)
  · intro st query opts idfFn m hm hm0 docs st2 hrun
    unfold imExecuteSearch at hrun
    simp only [hm, hm0, if_true] at hrun
    split at hrun
    · simp at hrun
    · simp only [Prod.mk.injEq, Option.some.injEq] at hrun
      exact hrun.1.symm

/-- Concrete C2 storage: two json-encoded term chunks over docs a and b. -/
def c2SfnState : SfnState :=
  { pOpts := {}, fields := ["t"],
    storage :=
      [ { field := "t", term := "x",
          payload := strToBytes (jsStringify (Json.arr [Json.str "a", Json.str "b"])),
          encoding := .json, docFrequency := 2 },
        { field := "t", term := "y",
          payload := strToBytes (jsStringify (Json.arr [Json.str "a"])),
          encoding := .json, docFrequency := 1 } ],
    stats := {}, termCache := lruInit RetrievedPostingChunk 100 }

def c2Opts : SearchOptions := { minScore := some 2 }

def c2IdfFn : Nat → ℚ := fun _ => 1

def c2Run : Except CodecErr (Option QueryResult × SfnState) :=
  sfnExecuteSearch c2SfnState "x y" c2Opts c2IdfFn

def c2Result : QueryResult :=
  match c2Run with
  | .ok (some r, _) => r
  | _ => { documents := [], postings := [] }

def c2St2 : SfnState :=
  match c2Run with
  | .ok (_, s) => s
  | _ => c2SfnState

def c2ScoredAll : List ScoredDoc :=
  match engineScoredAll c2SfnState.storage c2SfnState.stats c2SfnState.termCache
      (sfnBuildQueryTokens c2SfnState.pOpts "x y" (c2Opts.fields.getD c2SfnState.fields)
        (c2Opts.applyQueryNGrams.getD false)) c2IdfFn with
  | .ok l => l
  | .error _ => []

/-- Concrete C2 in-memory state: one document under "hello". -/
def c2ImState : InMemoryState :=
  { pOpts := {}, fields := ["title"],
    postings := [("title::hello", [("doc-1", { frequency := 2 })])],
    vocabulary := [], fuzzyCache := [], statsManager := {} }

def c2ImOpts : InMemorySearchOptions := { minScore := some 1 }

def c2ImRun : Option (List ScoredDoc) × InMemoryState :=
  imExecuteSearch c2ImState "hello" c2ImOpts c2IdfFn

def c2ImDocs : List ScoredDoc := c2ImRun.1.getD []

/-- Witness for C2 on both engines at concrete inputs: doc b (score 3/2)
is dropped by minScore 2 before the limit truncation. -/
theorem C2_witness :
    c2Opts.minScore = some 2 ∧ (0 : ℚ) < 2 ∧
    sfnExecuteSearch c2SfnState "x y" c2Opts c2IdfFn = .ok (some c2Result, c2St2) ∧
    engineScoredAll c2SfnState.storage c2SfnState.stats c2SfnState.termCache
        (sfnBuildQueryTokens c2SfnState.pOpts "x y"
          (c2Opts.fields.getD c2SfnState.fields)
          (c2Opts.applyQueryNGrams.getD false)) c2IdfFn = .ok c2ScoredAll ∧
    c2Result.documents
      = (c2ScoredAll.filter fun doc => (2 : ℚ) ≤ doc.score).take 10 ∧
    c2ScoredAll
      = [{ docId := "a", score := 3 }, { docId := "b", score := 3/2 }] ∧
    c2Result.documents = [{ docId := "a", score := 3 }] ∧
    c2ImOpts.minScore = some 1 ∧ (0 : ℚ) < 1 ∧
    imExecuteSearch c2ImState "hello" c2ImOpts c2IdfFn = (some c2ImDocs, c2ImRun.2) ∧
    c2ImDocs
      = ((imScoreQuery
          (imBuildQueryTokens c2ImState "hello" (c2ImOpts.fields.getD c2ImState.fields)
            (getFuzzyDistance c2ImOpts.fuzzy) (c2ImOpts.applyQueryNGrams.getD false)).2
          (imBuildQueryTokens c2ImState "hello" (c2ImOpts.fields.getD c2ImState.fields)
            (getFuzzyDistance c2ImOpts.fuzzy) (c2ImOpts.applyQueryNGrams.getD false)).1
          c2IdfFn).filter fun doc => (1 : ℚ) ≤ doc.score).take
        (max 1 (c2ImOpts.limit.getD 10)) := by
  have hrun : sfnExecuteSearch c2SfnState "x y" c2Opts c2IdfFn
      = .ok (some c2Result, c2St2) := by
    with_unfolding_all rfl
  have hall : engineScoredAll c2SfnState.storage c2SfnState.stats c2SfnState.termCache
      (sfnBuildQueryTokens c2SfnState.pOpts "x y"
        (c2Opts.fields.getD c2SfnState.fields)
        (c2Opts.applyQueryNGrams.getD false)) c2IdfFn = .ok c2ScoredAll := by
    with_unfolding_all rfl
  have himrun : imExecuteSearch c2ImState "hello" c2ImOpts c2IdfFn
      = (some c2ImDocs, c2ImRun.2) := by
    with_unfolding_all rfl
  refine ⟨rfl, by norm_num, hrun, hall,
    (C2_minScore_before_truncation).1 c2SfnState "x y" c2Opts c2IdfFn 2 rfl
      (by norm_num) c2Result c2St2 hrun c2ScoredAll hall,
    by with_unfolding_all rfl, by with_unfolding_all rfl, rfl, by norm_num, himrun,
    (C2_minScore_before_truncation).2 c2ImState "hello" c2ImOpts c2IdfFn 1 rfl
      (by norm_num) c2ImDocs c2ImRun.2 himrun⟩
